import Mathlib

/-!
# Loot-share bookkeeping of `src/storer.js`

A shallow embedding of the balance computation (`calculateBalance`), the expense
normaliser (`parseExpense`), the hunt constructor (`persistLoot`) and the
merge-and-recompute step of `persistExpense`, followed by the properties proved of them.

## Numbers

JavaScript numbers are IEEE-754 binary64 values.  The embedding keeps two layers.

* Amounts, loot and balances are non-negative integers or `NaN` (`JsNum`).  On integers
  `+`, `-`, `<` and `Math.floor (x / n)` are taken exactly, which is what binary64 does
  as long as every intermediate value stays below `2 ^ 53`.  At `2 ^ 53` and above
  binary64 rounds these operations (`2 ^ 53 + 1` is `2 ^ 53`) and the embedding no
  longer follows the code; the statements about the profit branch and about the order
  of the entries therefore carry the bound `< 2 ^ 53` on the loot or on the total.
  Fractions, negative numbers and the infinities have no value in `JsNum`.
* The shortfall branch of `calculateBalance` leaves the integers
  (`amount / totalExpenses * 100`, `... / 100`, `loot * percentage`).  Each of these
  operations is rounded to the nearest binary64 value, ties to even (`roundDouble`),
  because the rounding is visible in the integer result on everyday inputs.
  Overflow and subnormal values are not modelled: the operands are quotients and
  products of integers, far from both ends of the exponent range.
-/

namespace Storer

/-! ## Binary64 rounding -/

/-- A non-negative rational `num / den`, used for the exact value of a binary64 number. -/
structure Frac where
  num : ℕ
  den : ℕ
  deriving DecidableEq

/-- The `Math.floor` of a non-negative value. -/
def Frac.floor (x : Frac) : ℕ := x.num / x.den

/-- The integer nearest to `n / d`, the even one when `n / d` lies halfway. -/
def rne (n d : ℕ) : ℕ :=
  let q := n / d
  let r := n % d
  if 2 * r < d then q else if d < 2 * r then q + 1 else if q % 2 = 0 then q else q + 1

/-- Number of binary digits of `n`, by repeated halving (`fuel` bounds the recursion). -/
def bitLength : ℕ → ℕ → ℕ
  | 0, _ => 0
  | fuel + 1, n => if n = 0 then 0 else bitLength fuel (n / 2) + 1

/-- The position of the leading binary digit: `2 ^ ilog2 n ≤ n < 2 ^ (ilog2 n + 1)`
for `n > 0`. -/
def ilog2 (n : ℕ) : ℕ := bitLength n n - 1

/-- The binary exponent `e` of `n / d`, that is `2 ^ e ≤ n / d < 2 ^ (e + 1)`, for
positive `n` and `d`.  The difference of the leading digit positions is `e` or `e + 1`;
the comparison decides which. -/
def binade (n d : ℕ) : ℤ :=
  let e0 : ℤ := (ilog2 n : ℤ) - (ilog2 d : ℤ)
  if d * 2 ^ e0.toNat ≤ n * 2 ^ (-e0).toNat then e0 else e0 - 1

/-- Round the reduced fraction `n / d` to 53 significant binary digits: with `e` its
binary exponent and `s = 52 - e`, the significand is `n / d * 2 ^ s` rounded to the
nearest integer (ties to even), and the result is that integer times `2 ^ (-s)`. -/
def roundReduced (n d : ℕ) : Frac :=
  if n = 0 then ⟨0, 1⟩
  else
    let s : ℤ := 52 - binade n d
    ⟨rne (n * 2 ^ s.toNat) (d * 2 ^ (-s).toNat) * 2 ^ (-s).toNat, 2 ^ s.toNat⟩

/-- The binary64 value nearest to `x` (round to nearest, ties to even): the result of a
JavaScript arithmetic operation whose exact value is `x`.  The fraction is reduced to
lowest terms first, so the result does not depend on how `x` is written. -/
def roundDouble (x : Frac) : Frac :=
  let g := Nat.gcd x.num x.den
  roundReduced (x.num / g) (x.den / g)

/-- A non-negative integer that is a binary64 value, i.e. one a JavaScript number can
hold: converting it to binary64 gives it back. -/
def IsDouble (n : ℕ) : Prop := (roundDouble ⟨n, 1⟩).floor = n

instance (n : ℕ) : Decidable (IsDouble n) := by
  unfold IsDouble
  infer_instance

/-! ## Data model -/

/-- The numbers the bookkeeping stores: a non-negative integer, or `NaN`. -/
inductive JsNum where
  | nan
  | int (n : ℕ)
  deriving DecidableEq

/-- JavaScript `+` on stored numbers: `NaN` is absorbing, and integers are added
exactly, which is binary64 addition as long as the sum is below `2 ^ 53`. -/
def JsNum.add : JsNum → JsNum → JsNum
  | .int a, .int b => .int (a + b)
  | _, _ => .nan

/-- An amount as it arrives in a request: something `Number(...)` turns into the
non-negative integer `n`, or something it turns into `NaN`.  Amounts that `Number(...)`
turns into a fraction, a negative number or an infinity are not covered. -/
inductive RawAmount where
  | numeric (n : ℕ)
  | notNumeric
  deriving DecidableEq

/-- The coercion `Number(x)`. -/
def toNumber : RawAmount → JsNum
  | .numeric n => .int n
  | .notNumeric => .nan

/-- An entry of `hunt.expenses`, and of the working copies made from it. -/
structure Expense where
  amount : JsNum
  reporter : String
  balance : JsNum
  deriving DecidableEq

/-- The fields of an incoming expense report (`ExpenseModel`) that the storer reads. -/
structure ExpenseReport where
  amount : RawAmount
  reporter : String
  code : String
  deriving DecidableEq

/-- The fields of a session report that `persistLoot` copies into the loot and the
seed expense.  The session metadata (dates, damage, items, monsters) is stored
untouched and is left out. -/
structure SessionReport where
  supplies : RawAmount
  reporter : String
  loot : ℕ
  deriving DecidableEq

/-- A stored hunt: its code, its loot and its expenses. -/
structure Hunt where
  code : String
  loot : ℕ
  expenses : List Expense
  deriving DecidableEq

/-- What a call of the storer can throw. -/
inductive StorerError where
  /-- The `Error` thrown when `Hunt.findOne` finds nothing: "Unable to find hunt with code". -/
  | huntNotFound
  /-- The `TypeError` of `reporterData.amount` when `calculatedData.find` returned
  `undefined` in the write-back loop. -/
  | reporterDataUndefined
  deriving DecidableEq

/-! ## `parseExpense` and `calculateBalance` -/

/-- Source: `parseExpense`. -/
def parseExpense (expense : ExpenseReport) : Expense :=
  { amount := toNumber expense.amount, reporter := expense.reporter, balance := .int 0 }

/-- Source: the `reduce` at the top of `calculateBalance`. -/
def totalExpenses (expensesData : List Expense) : JsNum :=
  expensesData.foldl (fun total data => total.add data.amount) (.int 0)

/-- Source: `Number((Math.floor(amount / totalExpenses * 100) / 100).toFixed(2))` for
integers `amount` and `totalExpenses > 0`.  `toFixed(2)` prints the number of hundredths
nearest to its argument (the larger one on a tie) and `Number` reads the decimal back. -/
def percentage (amount totalExpenses : ℕ) : Frac :=
  let ratio := roundDouble ⟨amount, totalExpenses⟩
  let points := (roundDouble ⟨ratio.num * 100, ratio.den⟩).floor
  let fraction := roundDouble ⟨points, 100⟩
  let hundredths := (2 * (fraction.num * 100) + fraction.den) / (2 * fraction.den)
  roundDouble ⟨hundredths, 100⟩

/-- Source: the balance assigned in the shortfall branch,
`Math.floor(hunt.loot * percentage)`.

With `totalExpenses = 0` the branch is entered only when `loot = 0` (the test
`0 < loot` failed); `amount / 0` is then `NaN` or `Infinity` and `0 * percentage`
is `NaN` either way. -/
def shortfallBalance (loot : ℕ) (amount totalExpenses : JsNum) : JsNum :=
  match amount, totalExpenses with
  | .int a, .int t =>
    if t = 0 then .nan
    else
      let p := percentage a t
      .int (roundDouble ⟨loot * p.num, p.den⟩).floor
  | _, _ => .nan

/-- Source: `calculateBalance`.  The test `totalExpenses < hunt.loot` is false when the
total is `NaN`.  In the profit branch the total is an integer below the loot; the
subtraction, the floored division and the addition are taken exactly, which is what
binary64 does for a loot below `2 ^ 53`. -/
def calculateBalance (hunt : Hunt) (expensesData : List Expense) : List Expense :=
  let total := totalExpenses expensesData
  match total with
  | .int t =>
    if t < hunt.loot then
      let profit := (hunt.loot - t) / expensesData.length
      expensesData.map fun expense =>
        { expense with balance := expense.amount.add (.int profit) }
    else
      expensesData.map fun expense =>
        { expense with balance := shortfallBalance hunt.loot expense.amount total }
  | .nan =>
    expensesData.map fun expense =>
      { expense with balance := shortfallBalance hunt.loot expense.amount total }

/-- A call of `calculateBalance` seen from its caller: the body has no `throw` and
reads properties of the list entries only, so every call returns. -/
def calculateBalanceCall (hunt : Hunt) (expensesData : List Expense) :
    Except StorerError (List Expense) :=
  .ok (calculateBalance hunt expensesData)

/-! ## `persistLoot` and `persistExpense` -/

/-- Source: `persistLoot`, the hunt handed to `hunt.save()`.  The code comes from
`generateCode` and is a parameter. -/
def persistLoot (code : String) (report : SessionReport) : Hunt :=
  let expense : ExpenseReport :=
    { amount := report.supplies, reporter := report.reporter, code := "" }
  let parsedExpense := { parseExpense expense with balance := .int report.loot }
  { code := code, loot := report.loot, expenses := [] ++ [parsedExpense] }

/-- Source: the write-back loop of `persistExpense`
(`hunt.expenses.forEach (expenseData => ...)`): every stored entry takes the amount
and balance of the first calculated entry with its reporter; a missing entry makes
`reporterData.amount` throw. -/
def writeBack (calculatedData : List Expense) :
    List Expense → Except StorerError (List Expense)
  | [] => .ok []
  | expenseData :: rest =>
    match calculatedData.find? (fun data => decide (data.reporter = expenseData.reporter)) with
    | none => .error .reporterDataUndefined
    | some reporterData =>
      match writeBack calculatedData rest with
      | .error err => .error err
      | .ok rest' =>
        .ok ({ expenseData with
                amount := reporterData.amount, balance := reporterData.balance } :: rest')

/-- Source: `persistExpense` from `parseExpense(expense)` to the end of the write-back
loop, for the hunt that `Hunt.findOne` returned: the merge of the report into the
working copy, the recomputation of all balances, and the write-back.  The result is
the hunt handed to `hunt.save()`. -/
def mergeAndRecompute (hunt : Hunt) (expense : ExpenseReport) : Except StorerError Hunt :=
  let parsedExpense := parseExpense expense
  let currentData : List Expense := hunt.expenses.map fun expenseData =>
    { amount := expenseData.amount, balance := expenseData.balance,
      reporter := expenseData.reporter }
  match currentData.find? (fun data => decide (data.reporter = parsedExpense.reporter)) with
  | some _ =>
    let updated := currentData.map fun entry =>
      if entry.reporter = parsedExpense.reporter then
        { entry with amount := parsedExpense.amount, balance := .int 0 }
      else entry
    let calculatedData := calculateBalance hunt updated
    match writeBack calculatedData hunt.expenses with
    | .error err => .error err
    | .ok expenses => .ok { hunt with expenses := expenses }
  | none =>
    let pushed := currentData ++
      [{ amount := parsedExpense.amount, balance := .int 0,
         reporter := parsedExpense.reporter }]
    let stored := hunt.expenses ++ [parsedExpense]
    let calculatedData := calculateBalance { hunt with expenses := stored } pushed
    match writeBack calculatedData stored with
    | .error err => .error err
    | .ok expenses => .ok { hunt with expenses := expenses }

/-- Source: `persistExpense` up to the call of `hunt.save()`, with the result of
`Hunt.findOne` as an argument: the value is the hunt handed to `hunt.save()`.  Saving
itself is done by the Mongoose schema, which is not part of `storer.js`; whether it
accepts the hunt is not modelled. -/
def persistExpense (found : Option Hunt) (expense : ExpenseReport) :
    Except StorerError Hunt :=
  match found with
  | some hunt => mergeAndRecompute hunt expense
  | none => .error .huntNotFound

/-- A sequence of `persistExpense` calls on one hunt, each working on the hunt the
previous one saved. -/
def persistExpenses (hunt : Hunt) : List ExpenseReport → Except StorerError Hunt
  | [] => .ok hunt
  | expense :: rest =>
    match persistExpense (some hunt) expense with
    | .error err => .error err
    | .ok hunt' => persistExpenses hunt' rest

/-- The reporters of a hunt, in stored order. -/
def Hunt.reporters (hunt : Hunt) : List String := hunt.expenses.map Expense.reporter

/-! ## Vocabulary of the statements -/

/-- The integer value of a stored number, `NaN` counting for nothing. -/
def JsNum.toNat : JsNum → ℕ
  | .int a => a
  | .nan => 0

/-- The sum of the integer amounts of a list of expenses. -/
def natTotal (expensesData : List Expense) : ℕ :=
  (expensesData.map fun expense => expense.amount.toNat).sum

/-- The balance `calculateBalance` gives to an entry with the given amount, when the
list it works on has the given total and number of entries. -/
def assignedBalance (loot : ℕ) (total : JsNum) (count : ℕ) (amount : JsNum) : JsNum :=
  match total with
  | .int t =>
    if t < loot then amount.add (.int ((loot - t) / count))
    else shortfallBalance loot amount total
  | .nan => shortfallBalance loot amount total

/-- The working copy of `persistExpense` after its update branch: the entries of the
parsed reporter take the parsed amount and balance 0. -/
def updatedData (expenses : List Expense) (parsedExpense : Expense) : List Expense :=
  expenses.map fun entry =>
    if entry.reporter = parsedExpense.reporter then
      { entry with amount := parsedExpense.amount, balance := .int 0 }
    else entry

/-- What an entry records of its reporter: who reported, and how much. -/
def Expense.report (expense : Expense) : String × JsNum := (expense.reporter, expense.amount)

/-- Spec (§8): the shortfall balance `floor(L * floor(amount / T * 100) / 100)`, computed
in exact arithmetic. -/
def exactShortfallBalance (loot amount total : ℕ) : ℕ :=
  loot * (amount * 100 / total) / 100

/-- A call of `parseExpense` seen from its caller: the body builds an object literal and
has no `throw`, so every call returns. -/
def parseExpenseCall (expense : ExpenseReport) : Except StorerError Expense :=
  .ok (parseExpense expense)

/-- The sum of the integer balances of a list of expenses. -/
def balanceTotal (expensesData : List Expense) : ℕ :=
  (expensesData.map fun expense => expense.balance.toNat).sum

/-- Comment in `persistExpense` (steps 2.1 and 2.2), read literally: when the sum of the
expenses is lower than the loot, the share is the percentage of the expense over the
total expenses applied to the loot; otherwise the total is subtracted from the loot and
the result is split evenly. -/
def commentShare (loot amount total count : ℕ) : ℤ :=
  if total < loot then ((loot * amount / total : ℕ) : ℤ)
  else ((loot : ℤ) - (total : ℤ)) / (count : ℤ)

/-- The exact value of a fraction. -/
def Frac.val (x : Frac) : ℚ := (x.num : ℚ) / (x.den : ℚ)

/-- The integer the shortfall branch assigns: `Math.floor(loot * percentage)`. -/
def shortfallShare (loot amount total : ℕ) : ℕ :=
  (roundDouble ⟨loot * (percentage amount total).num, (percentage amount total).den⟩).floor

/-- The whole percentage points `Math.floor(amount / totalExpenses * 100)`. -/
def points (amount total : ℕ) : ℕ :=
  (roundDouble
    ⟨(roundDouble ⟨amount, total⟩).num * 100, (roundDouble ⟨amount, total⟩).den⟩).floor

/-- The percentage made from whole points: `Number((points / 100).toFixed(2))`. -/
def percentageOfPoints (points : ℕ) : Frac :=
  let fraction := roundDouble ⟨points, 100⟩
  let hundredths := (2 * (fraction.num * 100) + fraction.den) / (2 * fraction.den)
  roundDouble ⟨hundredths, 100⟩

/-! ## Lemmas -/

theorem add_int_int (a b : ℕ) : (JsNum.int a).add (JsNum.int b) = JsNum.int (a + b) := rfl

theorem int_of_ne_nan (x : JsNum) (h : x ≠ JsNum.nan) : x = JsNum.int x.toNat := by
  cases x with
  | nan => exact absurd rfl h
  | int a => rfl

theorem foldl_add_int (expensesData : List Expense)
    (hint : ∀ e ∈ expensesData, e.amount ≠ JsNum.nan) (k : ℕ) :
    expensesData.foldl (fun (total : JsNum) (data : Expense) => total.add data.amount)
      (JsNum.int k) = JsNum.int (k + natTotal expensesData) := by
  induction expensesData generalizing k with
  | nil => simp [natTotal]
  | cons e es ih =>
    have ha := int_of_ne_nan e.amount (hint e (List.mem_cons_self _ _))
    have hes : ∀ x ∈ es, x.amount ≠ JsNum.nan := fun x hx =>
      hint x (List.mem_cons_of_mem _ hx)
    rw [List.foldl_cons, ha, add_int_int, ih hes (k + e.amount.toNat)]
    simp [natTotal, JsNum.toNat, Nat.add_assoc]

theorem totalExpenses_int (expensesData : List Expense)
    (hint : ∀ e ∈ expensesData, e.amount ≠ JsNum.nan) :
    totalExpenses expensesData = .int (natTotal expensesData) := by
  have h := foldl_add_int expensesData hint 0
  simpa [totalExpenses] using h

theorem calculateBalance_eq_map (hunt : Hunt) (expensesData : List Expense) :
    calculateBalance hunt expensesData = expensesData.map fun expense =>
      { expense with
        balance := assignedBalance hunt.loot (totalExpenses expensesData)
          expensesData.length expense.amount } := by
  unfold calculateBalance assignedBalance
  cases h : totalExpenses expensesData with
  | nan => simp
  | int t =>
    by_cases hlt : t < hunt.loot
    · simp [hlt]
    · simp [hlt]

theorem calculateBalance_length (hunt : Hunt) (expensesData : List Expense) :
    (calculateBalance hunt expensesData).length = expensesData.length := by
  rw [calculateBalance_eq_map, List.length_map]

theorem toNat_le_natTotal (expensesData : List Expense) (e : Expense)
    (he : e ∈ expensesData) : e.amount.toNat ≤ natTotal expensesData := by
  induction expensesData with
  | nil => simp at he
  | cons x xs ih =>
    simp only [natTotal, List.map_cons, List.sum_cons]
    rcases List.mem_cons.mp he with h | h
    · subst h
      exact Nat.le_add_right _ _
    · exact Nat.le_trans (ih h) (Nat.le_add_left _ _)

theorem totalExpenses_eq_foldl_report (expensesData : List Expense) :
    totalExpenses expensesData =
      (expensesData.map Expense.report).foldl
        (fun (total : JsNum) (k : String × JsNum) => total.add k.2) (JsNum.int 0) := by
  simp [totalExpenses, List.foldl_map, Expense.report]

theorem calculateBalance_eq_map_report (hunt : Hunt) (expensesData : List Expense) :
    calculateBalance hunt expensesData =
      (expensesData.map Expense.report).map fun (k : String × JsNum) =>
        (⟨k.2, k.1, assignedBalance hunt.loot (totalExpenses expensesData)
          expensesData.length k.2⟩ : Expense) := by
  rw [calculateBalance_eq_map, List.map_map]
  rfl

/-- The result of `calculateBalance` depends on the loot and on the reporters and
amounts of the list only, not on the balances it finds there. -/
theorem calculateBalance_congr (hunt hunt' : Hunt) (es es' : List Expense)
    (hloot : hunt.loot = hunt'.loot)
    (hrep : es.map Expense.report = es'.map Expense.report) :
    calculateBalance hunt es = calculateBalance hunt' es' := by
  have hlen : es.length = es'.length := by
    have := congrArg List.length hrep
    simpa using this
  rw [calculateBalance_eq_map_report, calculateBalance_eq_map_report,
    totalExpenses_eq_foldl_report es, totalExpenses_eq_foldl_report es', hrep, hlen, hloot]

theorem calculateBalance_report (hunt : Hunt) (expensesData : List Expense) :
    (calculateBalance hunt expensesData).map Expense.report
      = expensesData.map Expense.report := by
  rw [calculateBalance_eq_map, List.map_map]
  rfl

theorem calculateBalance_reporter (hunt : Hunt) (expensesData : List Expense) :
    (calculateBalance hunt expensesData).map Expense.reporter
      = expensesData.map Expense.reporter := by
  rw [calculateBalance_eq_map, List.map_map]
  rfl

/-- Running `calculateBalance` on its own result changes nothing. -/
theorem calculateBalance_idem (hunt hunt' : Hunt) (expensesData : List Expense)
    (hloot : hunt'.loot = hunt.loot) :
    calculateBalance hunt' (calculateBalance hunt expensesData)
      = calculateBalance hunt expensesData :=
  calculateBalance_congr hunt' hunt _ _ hloot (calculateBalance_report hunt expensesData)

/-! ### The write-back loop -/

theorem find_reporter_isSome (calculatedData : List Expense) (reporter : String)
    (hmem : reporter ∈ calculatedData.map Expense.reporter) :
    ∃ d, calculatedData.find? (fun data => decide (data.reporter = reporter)) = some d := by
  induction calculatedData with
  | nil => simp at hmem
  | cons c cs ih =>
    by_cases hc : c.reporter = reporter
    · exact ⟨c, by simp [List.find?, hc]⟩
    · have hmem' : reporter ∈ cs.map Expense.reporter := by
        simp only [List.map_cons, List.mem_cons] at hmem
        rcases hmem with h | h
        · exact absurd h.symm hc
        · exact h
      obtain ⟨d, hd⟩ := ih hmem'
      exact ⟨d, by simp [List.find?, hc, hd]⟩

theorem find_reporter_of_nodup (calculatedData : List Expense) (c : Expense)
    (hnodup : (calculatedData.map Expense.reporter).Nodup) (hc : c ∈ calculatedData) :
    calculatedData.find? (fun data => decide (data.reporter = c.reporter)) = some c := by
  induction calculatedData with
  | nil => simp at hc
  | cons x xs ih =>
    rw [List.map_cons, List.nodup_cons] at hnodup
    rcases List.mem_cons.mp hc with h | h
    · subst h
      simp [List.find?]
    · have hne : x.reporter ≠ c.reporter := by
        intro heq
        exact hnodup.1 (heq ▸ List.mem_map_of_mem Expense.reporter h)
      simp only [List.find?, hne, decide_False]
      exact ih hnodup.2 h

/-- The write-back never throws when every stored reporter occurs in the calculated
data. -/
theorem writeBack_ok (calculatedData stored : List Expense)
    (hsub : ∀ p ∈ stored, p.reporter ∈ calculatedData.map Expense.reporter) :
    ∃ out, writeBack calculatedData stored = Except.ok out := by
  induction stored with
  | nil => exact ⟨[], rfl⟩
  | cons p ps ih =>
    obtain ⟨d, hd⟩ := find_reporter_isSome calculatedData p.reporter
      (hsub p (List.mem_cons_self _ _))
    obtain ⟨out, hout⟩ := ih (fun q hq => hsub q (List.mem_cons_of_mem _ hq))
    exact ⟨{ p with amount := d.amount, balance := d.balance } :: out,
      by simp only [writeBack, hd, hout]⟩

/-- With pairwise-distinct reporters, writing back onto entries that carry the
reporters of chosen calculated entries yields those calculated entries. -/
theorem writeBack_forall₂ (calculatedData : List Expense)
    (hnodup : (calculatedData.map Expense.reporter).Nodup)
    (stored chosen : List Expense)
    (h : List.Forall₂ (fun (p c : Expense) => p.reporter = c.reporter ∧ c ∈ calculatedData)
      stored chosen) :
    writeBack calculatedData stored = Except.ok chosen := by
  induction h with
  | nil => rfl
  | @cons p c ps cs hpc _ ih =>
    have hfind := find_reporter_of_nodup calculatedData c hnodup hpc.2
    rw [← hpc.1] at hfind
    simp only [writeBack, hfind, ih]
    have : ({ p with amount := c.amount, balance := c.balance } : Expense) = c := by
      cases c
      cases p
      simp only [Expense.mk.injEq, true_and]
      exact ⟨hpc.1, trivial⟩
    rw [this]

/-- With pairwise-distinct reporters and the stored entries carrying the reporters of
the calculated entries in the same order, the write-back stores the calculated data. -/
theorem writeBack_eq (calculatedData stored : List Expense)
    (hnodup : (calculatedData.map Expense.reporter).Nodup)
    (hrep : stored.map Expense.reporter = calculatedData.map Expense.reporter) :
    writeBack calculatedData stored = Except.ok calculatedData := by
  apply writeBack_forall₂ calculatedData hnodup
  have key : ∀ (cs ps : List Expense), ps.map Expense.reporter = cs.map Expense.reporter →
      (∀ c ∈ cs, c ∈ calculatedData) →
      List.Forall₂ (fun (p c : Expense) => p.reporter = c.reporter ∧ c ∈ calculatedData)
        ps cs := by
    intro cs
    induction cs with
    | nil =>
      intro ps hps _
      have : ps = [] := by simpa using hps
      subst this
      exact List.Forall₂.nil
    | cons c cs ih =>
      intro ps hps hmem
      cases ps with
      | nil => simp at hps
      | cons p ps =>
        simp only [List.map_cons, List.cons.injEq] at hps
        exact List.Forall₂.cons ⟨hps.1, hmem c (List.mem_cons_self _ _)⟩
          (ih ps hps.2 (fun x hx => hmem x (List.mem_cons_of_mem _ hx)))
  exact key calculatedData stored hrep (fun c hc => hc)

/-! ### The merge -/

theorem copy_eq (expenses : List Expense) :
    expenses.map (fun expenseData =>
      ({ amount := expenseData.amount, balance := expenseData.balance,
         reporter := expenseData.reporter } : Expense)) = expenses := by
  induction expenses with
  | nil => rfl
  | cons e es ih => rw [List.map_cons, ih]

theorem find_reporter_none (expenses : List Expense) (reporter : String)
    (hnot : reporter ∉ expenses.map Expense.reporter) :
    expenses.find? (fun data => decide (data.reporter = reporter)) = none := by
  rw [List.find?_eq_none]
  intro x hx
  simp only [decide_eq_true_eq]
  intro heq
  exact hnot (heq ▸ List.mem_map_of_mem Expense.reporter hx)

theorem updatedData_reporter (expenses : List Expense) (parsedExpense : Expense) :
    (updatedData expenses parsedExpense).map Expense.reporter
      = expenses.map Expense.reporter := by
  unfold updatedData
  rw [List.map_map]
  apply List.map_congr_left
  intro e _
  by_cases h : e.reporter = parsedExpense.reporter <;> simp [h]

/-- The update branch of `persistExpense` on a hunt with pairwise-distinct reporters:
the stored list becomes the result of `calculateBalance` on the updated working copy. -/
theorem mergeAndRecompute_update (hunt : Hunt) (expense : ExpenseReport)
    (hnodup : hunt.reporters.Nodup) (hmem : expense.reporter ∈ hunt.reporters) :
    mergeAndRecompute hunt expense = Except.ok
      { hunt with
        expenses := calculateBalance hunt (updatedData hunt.expenses (parseExpense expense)) } := by
  obtain ⟨d, hd⟩ := find_reporter_isSome hunt.expenses expense.reporter hmem
  have hwb := writeBack_eq
    (calculateBalance hunt (updatedData hunt.expenses (parseExpense expense))) hunt.expenses
    (by rw [calculateBalance_reporter, updatedData_reporter]; exact hnodup)
    (by rw [calculateBalance_reporter, updatedData_reporter])
  unfold mergeAndRecompute
  simp only [copy_eq]
  have hd' : List.find? (fun data => decide (data.reporter = (parseExpense expense).reporter))
      hunt.expenses = some d := hd
  rw [hd']
  simp only []
  unfold updatedData at hwb
  rw [hwb]
  rfl

/-- The append branch of `persistExpense` on a hunt with pairwise-distinct reporters:
the stored list becomes the result of `calculateBalance` on the extended list. -/
theorem mergeAndRecompute_push (hunt : Hunt) (expense : ExpenseReport)
    (hnodup : hunt.reporters.Nodup) (hnew : expense.reporter ∉ hunt.reporters) :
    mergeAndRecompute hunt expense = Except.ok
      { hunt with
        expenses := calculateBalance hunt (hunt.expenses ++ [parseExpense expense]) } := by
  have hnone := find_reporter_none hunt.expenses expense.reporter hnew
  have hnodup' : ((hunt.expenses ++ [parseExpense expense]).map Expense.reporter).Nodup := by
    rw [List.map_append, List.map_singleton]
    exact List.Nodup.append hnodup (List.nodup_singleton _)
      (by
        intro x hx hx'
        rw [List.mem_singleton] at hx'
        subst hx'
        exact hnew hx)
  have hwb := writeBack_eq
    (calculateBalance hunt (hunt.expenses ++ [parseExpense expense]))
    (hunt.expenses ++ [parseExpense expense])
    (by rw [calculateBalance_reporter]; exact hnodup')
    (by rw [calculateBalance_reporter])
  have hloot : calculateBalance
      { hunt with expenses := hunt.expenses ++ [parseExpense expense] }
      (hunt.expenses ++ [parseExpense expense])
      = calculateBalance hunt (hunt.expenses ++ [parseExpense expense]) :=
    calculateBalance_congr _ _ _ _ rfl rfl
  unfold mergeAndRecompute
  simp only [copy_eq]
  have hnone' : List.find? (fun data => decide (data.reporter = (parseExpense expense).reporter))
      hunt.expenses = none := hnone
  rw [hnone']
  simp only []
  have hparsed : (⟨(parseExpense expense).amount, (parseExpense expense).reporter,
      JsNum.int 0⟩ : Expense) = parseExpense expense := rfl
  rw [hparsed, hloot, hwb]

theorem updatedData_report (expenses : List Expense) (parsedExpense : Expense) :
    (updatedData expenses parsedExpense).map Expense.report
      = expenses.map fun e =>
          if e.reporter = parsedExpense.reporter then (e.reporter, parsedExpense.amount)
          else e.report := by
  unfold updatedData
  rw [List.map_map]
  apply List.map_congr_left
  intro e _
  by_cases h : e.reporter = parsedExpense.reporter <;> simp [h, Expense.report]

/-- Updating entries that already carry the parsed amount changes no reporter and no
amount. -/
theorem updatedData_report_fix (expenses : List Expense) (parsedExpense : Expense)
    (h : ∀ e ∈ expenses, e.reporter = parsedExpense.reporter →
      e.amount = parsedExpense.amount) :
    (updatedData expenses parsedExpense).map Expense.report
      = expenses.map Expense.report := by
  rw [updatedData_report]
  apply List.map_congr_left
  intro e he
  by_cases hr : e.reporter = parsedExpense.reporter
  · simp [hr, Expense.report, h e he hr]
  · simp [hr]

theorem mem_of_report_eq (es es' : List Expense)
    (hrep : es.map Expense.report = es'.map Expense.report) (e : Expense) (he : e ∈ es) :
    ∃ e' ∈ es', e'.reporter = e.reporter ∧ e'.amount = e.amount := by
  have hmem : e.report ∈ es'.map Expense.report := hrep ▸ List.mem_map_of_mem _ he
  obtain ⟨e', he', heq⟩ := List.mem_map.mp hmem
  simp only [Expense.report, Prod.mk.injEq] at heq
  exact ⟨e', he', heq.1, heq.2⟩

theorem reporter_of_report_eq (es es' : List Expense)
    (hrep : es.map Expense.report = es'.map Expense.report) :
    es.map Expense.reporter = es'.map Expense.reporter := by
  have h := congrArg (List.map Prod.fst) hrep
  simpa [List.map_map, Function.comp_def, Expense.report] using h

/-- One merge keeps the reporters pairwise distinct, adds the reporter of the report to
them if new, records the reported amount, and stores balances that `calculateBalance`
reproduces. -/
theorem mergeAndRecompute_reporters (hunt : Hunt) (expense : ExpenseReport)
    (hnodup : hunt.reporters.Nodup) :
    ∃ hunt', mergeAndRecompute hunt expense = Except.ok hunt' ∧
      hunt'.loot = hunt.loot ∧ hunt'.reporters.Nodup ∧
      (∀ x, x ∈ hunt'.reporters ↔ x ∈ hunt.reporters ∨ x = expense.reporter) ∧
      calculateBalance hunt' hunt'.expenses = hunt'.expenses ∧
      (∀ e ∈ hunt'.expenses, e.reporter = expense.reporter →
        e.amount = toNumber expense.amount) := by
  by_cases hmem : expense.reporter ∈ hunt.reporters
  · refine ⟨_, mergeAndRecompute_update hunt expense hnodup hmem, rfl, ?_, ?_,
      calculateBalance_idem hunt _ _ rfl, ?_⟩
    · simp only [Hunt.reporters, calculateBalance_reporter, updatedData_reporter]
      exact hnodup
    · intro x
      simp only [Hunt.reporters, calculateBalance_reporter, updatedData_reporter]
      constructor
      · exact fun h => Or.inl h
      · rintro (h | h)
        · exact h
        · exact h ▸ hmem
    · intro e he hr
      obtain ⟨u, hu, hur, hua⟩ := mem_of_report_eq _ _
        (calculateBalance_report hunt (updatedData hunt.expenses (parseExpense expense))) e he
      obtain ⟨e0, _, rfl⟩ := List.mem_map.mp hu
      by_cases h0 : e0.reporter = (parseExpense expense).reporter
      · rw [← hua]
        simp [h0, parseExpense]
      · exfalso
        apply h0
        have : e0.reporter = e.reporter := by
          rw [← hur]
          simp [h0]
        rw [this, hr]
        rfl
  · refine ⟨_, mergeAndRecompute_push hunt expense hnodup hmem, rfl, ?_, ?_,
      calculateBalance_idem hunt _ _ rfl, ?_⟩
    · simp only [Hunt.reporters, calculateBalance_reporter, List.map_append,
        List.map_singleton]
      exact List.Nodup.append hnodup (List.nodup_singleton _)
        (by
          intro x hx hx'
          rw [List.mem_singleton] at hx'
          subst hx'
          exact hmem hx)
    · intro x
      simp only [Hunt.reporters, calculateBalance_reporter, List.map_append,
        List.map_singleton, List.mem_append, List.mem_singleton]
      rfl
    · intro e he hr
      obtain ⟨u, hu, hur, hua⟩ := mem_of_report_eq _ _
        (calculateBalance_report hunt (hunt.expenses ++ [parseExpense expense])) e he
      rcases List.mem_append.mp hu with h | h
      · exfalso
        apply hmem
        rw [← hr, ← hur]
        exact List.mem_map_of_mem _ h
      · rw [List.mem_singleton] at h
        rw [← hua, h]
        rfl

/-- A sequence of merges keeps the reporters pairwise distinct, collects the reporters
of the reports, and, once a merge happened, leaves stored balances that
`calculateBalance` reproduces. -/
theorem persistExpenses_invariant (reports : List ExpenseReport) (hunt : Hunt)
    (hnodup : hunt.reporters.Nodup) :
    ∃ hunt', persistExpenses hunt reports = Except.ok hunt' ∧
      hunt'.loot = hunt.loot ∧ hunt'.reporters.Nodup ∧
      (∀ x, x ∈ hunt'.reporters ↔
        x ∈ hunt.reporters ∨ x ∈ reports.map ExpenseReport.reporter) ∧
      (calculateBalance hunt hunt.expenses = hunt.expenses →
        calculateBalance hunt' hunt'.expenses = hunt'.expenses) := by
  induction reports generalizing hunt with
  | nil => exact ⟨hunt, rfl, rfl, hnodup, by simp, fun h => h⟩
  | cons r rs ih =>
    obtain ⟨h1, hstep, hloot1, hnodup1, hrep1, hfix1, _⟩ :=
      mergeAndRecompute_reporters hunt r hnodup
    obtain ⟨h2, hrest, hloot2, hnodup2, hrep2, hfix2⟩ := ih h1 hnodup1
    refine ⟨h2, ?_, hloot2.trans hloot1, hnodup2, ?_, fun _ => hfix2 hfix1⟩
    · simp only [persistExpenses, persistExpense, hstep, hrest]
    · intro x
      rw [hrep2 x, hrep1 x, List.map_cons, List.mem_cons]
      tauto

/-! ### Integers that are binary64 values -/

theorem bitLength_le (fuel : ℕ) : ∀ (n k : ℕ), n < 2 ^ k → bitLength fuel n ≤ k := by
  induction fuel with
  | zero => intro n k _; simp [bitLength]
  | succ fuel ih =>
    intro n k hn
    unfold bitLength
    by_cases h0 : n = 0
    · simp [h0]
    · simp only [h0, if_false]
      cases k with
      | zero =>
        simp at hn
        exact absurd hn h0
      | succ k =>
        have hhalf : n / 2 < 2 ^ k := by
          rw [Nat.div_lt_iff_lt_mul (by decide)]
          rw [pow_succ] at hn
          exact hn
        exact Nat.succ_le_succ (ih (n / 2) k hhalf)

theorem rne_one (m : ℕ) : rne m 1 = m := by
  simp [rne, Nat.mod_one]

/-- Every integer below `2 ^ 53` is a binary64 value. -/
theorem isDouble_of_lt (n : ℕ) (hn : n < 2 ^ 53) : IsDouble n := by
  unfold IsDouble roundDouble
  simp only [Nat.gcd_one_right, Nat.div_one]
  unfold roundReduced
  by_cases h0 : n = 0
  · simp [h0, Frac.floor]
  · simp only [h0, if_false]
    have hlog : ilog2 n ≤ 52 := by
      have := bitLength_le n n 53 hn
      unfold ilog2
      omega
    have hone : ilog2 1 = 0 := by decide
    have hb : binade n 1 ≤ (ilog2 n : ℤ) := by
      unfold binade
      simp only [hone]
      split <;> omega
    have hs : 0 ≤ 52 - binade n 1 := by omega
    have hneg : (-(52 - binade n 1)).toNat = 0 := by
      apply Int.toNat_eq_zero.mpr
      omega
    simp only [hneg, pow_zero, Nat.mul_one, rne_one, Frac.floor]
    exact Nat.mul_div_cancel _ (by positivity)

/-! ### A single reporter in the shortfall branch -/

theorem roundDouble_self (s : ℕ) (hs : 0 < s) :
    roundDouble ⟨s, s⟩ = roundDouble ⟨1, 1⟩ := by
  simp [roundDouble, Nat.gcd_self, Nat.div_self hs]

theorem percentage_self (s : ℕ) (hs : 0 < s) : percentage s s = ⟨2 ^ 52, 2 ^ 52⟩ := by
  unfold percentage
  rw [roundDouble_self s hs]
  decide

theorem roundDouble_mul_one (loot : ℕ) :
    roundDouble ⟨loot * 2 ^ 52, 2 ^ 52⟩ = roundDouble ⟨loot, 1⟩ := by
  have hg : Nat.gcd (loot * 2 ^ 52) (2 ^ 52) = 2 ^ 52 := Nat.gcd_mul_left_left _ _
  simp only [roundDouble, hg, Nat.gcd_one_right, Nat.div_one]
  rw [Nat.mul_div_cancel _ (by positivity), Nat.div_self (by positivity)]

/-- With one reporter `calculateBalance` assigns the whole loot, as long as the loot is
a binary64 value and loot and amount are not both zero. -/
theorem calculateBalance_single (hunt : Hunt) (s : ℕ) (reporter : String) (balance : JsNum)
    (hdouble : IsDouble hunt.loot) (hpos : ¬ (hunt.loot = 0 ∧ s = 0)) :
    calculateBalance hunt [⟨JsNum.int s, reporter, balance⟩]
      = [⟨JsNum.int s, reporter, JsNum.int hunt.loot⟩] := by
  rw [calculateBalance_eq_map]
  have htotal : totalExpenses [(⟨JsNum.int s, reporter, balance⟩ : Expense)] = JsNum.int s := by
    simp [totalExpenses, add_int_int]
  rw [htotal]
  simp only [List.map_cons, List.map_nil, List.length_singleton, assignedBalance]
  by_cases hlt : s < hunt.loot
  · simp only [hlt, if_true, add_int_int, Nat.div_one]
    have : s + (hunt.loot - s) = hunt.loot := by omega
    rw [this]
  · have hs : 0 < s := by
      rcases Nat.eq_zero_or_pos s with h | h
      · exact absurd ⟨by omega, h⟩ hpos
      · exact h
    have hs0 : s ≠ 0 := by omega
    simp only [hlt, if_false, shortfallBalance, hs0, percentage_self s hs,
      roundDouble_mul_one]
    unfold IsDouble at hdouble
    rw [hdouble]

/-! ## The balance computation -/

/-- C1. Profit case of `calculateBalance`: when all amounts are non-negative integers
and their total `T` is below the loot `L`, itself below `2 ^ 53`, the result pairs off
with the input entry by entry, each result keeping reporter and amount and carrying the
balance `amount + (L - T) / n`; when moreover `T = 0`, every balance is `L / n`.
Below `2 ^ 53` the sum, the subtraction and the final addition of the code are exact in
binary64, which is how the embedding takes them. -/
theorem calculateBalance_profit (hunt : Hunt) (expensesData : List Expense)
    (hint : ∀ e ∈ expensesData, e.amount ≠ JsNum.nan)
    (hlt : natTotal expensesData < hunt.loot) (_hloot : hunt.loot < 2 ^ 53) :
    List.Forall₂
      (fun e r => r.reporter = e.reporter ∧ r.amount = e.amount ∧
        r.balance = JsNum.int
          (r.amount.toNat + (hunt.loot - natTotal expensesData) / expensesData.length))
      expensesData (calculateBalance hunt expensesData) ∧
    (natTotal expensesData = 0 → ∀ r ∈ calculateBalance hunt expensesData,
      r.balance = JsNum.int (hunt.loot / expensesData.length)) := by
  have hmap : calculateBalance hunt expensesData = expensesData.map fun expense =>
      { expense with
        balance := JsNum.int
          (expense.amount.toNat + (hunt.loot - natTotal expensesData) / expensesData.length) } := by
    rw [calculateBalance_eq_map, totalExpenses_int expensesData hint]
    apply List.map_congr_left
    intro e he
    have ha := int_of_ne_nan e.amount (hint e he)
    rw [ha]
    simp [assignedBalance, hlt, add_int_int, JsNum.toNat]
  refine ⟨?_, ?_⟩
  · rw [hmap, List.forall₂_map_right_iff, List.forall₂_same]
    intro e _
    exact ⟨rfl, rfl, rfl⟩
  · intro hzero r hr
    rw [hmap] at hr
    obtain ⟨e, he, rfl⟩ := List.mem_map.mp hr
    have hle := toNat_le_natTotal expensesData e he
    have hz : e.amount.toNat = 0 := by omega
    simp [hz, hzero]

theorem calculateBalance_profit_witness :
    List.Forall₂
      (fun (e r : Expense) => r.reporter = e.reporter ∧ r.amount = e.amount ∧
        r.balance = JsNum.int (r.amount.toNat + (1000 - 300) / 2))
      [⟨JsNum.int 100, "A", JsNum.int 0⟩, ⟨JsNum.int 200, "B", JsNum.int 0⟩]
      (calculateBalance ⟨"h", 1000, []⟩
        [⟨JsNum.int 100, "A", JsNum.int 0⟩, ⟨JsNum.int 200, "B", JsNum.int 0⟩]) :=
  (calculateBalance_profit ⟨"h", 1000, []⟩
    [⟨JsNum.int 100, "A", JsNum.int 0⟩, ⟨JsNum.int 200, "B", JsNum.int 0⟩]
    (by decide) (by decide) (by decide)).1

/-- Example 2 of the spec: loot 1000 with reports of 100 and 200 gives 450 and 550. -/
theorem calculateBalance_example_two :
    calculateBalance ⟨"h", 1000, []⟩
        [⟨JsNum.int 100, "A", JsNum.int 0⟩, ⟨JsNum.int 200, "B", JsNum.int 0⟩]
      = [⟨JsNum.int 100, "A", JsNum.int 450⟩, ⟨JsNum.int 200, "B", JsNum.int 550⟩] := by
  decide

/-- C2. Shortfall case at loot 100 with A reporting 29 and B reporting 71 (total 100):
`29 / 100 * 100` is `28.999999999999996` in binary64, so `calculateBalance` gives A the
balance 28, whereas the exact formula `floor(100 * floor(29 / 100 * 100) / 100)` is 29. -/
theorem calculateBalance_shortfall_29_of_100 :
    calculateBalance ⟨"h", 100, []⟩
        [⟨JsNum.int 29, "A", JsNum.int 0⟩, ⟨JsNum.int 71, "B", JsNum.int 0⟩]
      = [⟨JsNum.int 29, "A", JsNum.int 28⟩, ⟨JsNum.int 71, "B", JsNum.int 71⟩] ∧
    exactShortfallBalance 100 29 100 = 29 := by
  decide

/-- Example 1 of the spec: loot 900 and three reports of 300 give 297 each. -/
theorem calculateBalance_example_one :
    calculateBalance ⟨"h", 900, []⟩
        [⟨JsNum.int 300, "A", JsNum.int 0⟩, ⟨JsNum.int 300, "B", JsNum.int 0⟩,
         ⟨JsNum.int 300, "C", JsNum.int 0⟩]
      = [⟨JsNum.int 300, "A", JsNum.int 297⟩, ⟨JsNum.int 300, "B", JsNum.int 297⟩,
         ⟨JsNum.int 300, "C", JsNum.int 297⟩] := by
  decide

/-- C10 (as stated, refuted). Given no expenses and loot 1000, `calculateBalance`
returns the empty list: the call does not fail. -/
theorem calculateBalanceCall_nil_1000 :
    calculateBalanceCall ⟨"h", 1000, []⟩ [] = Except.ok [] :=
  rfl

/-- C10 (amended). Given no expenses, `calculateBalance` returns the empty list
whatever the loot: the code has no check for an empty list and throws nothing. -/
theorem calculateBalanceCall_nil (hunt : Hunt) :
    calculateBalanceCall hunt [] = Except.ok [] := by
  simp [calculateBalanceCall, calculateBalance_eq_map]

/-! ## The seed hunt -/

/-- C7. The hunt built by `persistLoot` has the loot of the report and exactly one
expense: the reporter of the report, the report's supplies as a number, and the full
loot as balance; for supplies that are the integer `s` the amount is `s`. -/
theorem persistLoot_seed (code : String) (report : SessionReport) (s : ℕ) :
    (persistLoot code report).loot = report.loot ∧
    (persistLoot code report).expenses =
      [⟨toNumber report.supplies, report.reporter, JsNum.int report.loot⟩] ∧
    (persistLoot code { report with supplies := RawAmount.numeric s }).expenses =
      [⟨JsNum.int s, report.reporter, JsNum.int report.loot⟩] :=
  ⟨rfl, rfl, rfl⟩

/-- The example of the spec: loot 500 and supplies 50 give the single expense
`{amount: 50, reporter, balance: 500}`. -/
theorem persistLoot_example (code reporter : String) :
    persistLoot code ⟨RawAmount.numeric 50, reporter, 500⟩
      = ⟨code, 500, [⟨JsNum.int 50, reporter, JsNum.int 500⟩]⟩ :=
  rfl

/-! ## Reconciling one report -/

/-- C5. New reporter: on a hunt with pairwise-distinct reporters and a report whose
reporter is not among them, `persistExpense` succeeds, keeps the loot, keeps the old
entries in order with their reporters and amounts, appends one entry with the reporter
and the amount of the report, and stores the balances `calculateBalance` computes from
the loot and that extended list. -/
theorem mergeAndRecompute_new_reporter (hunt : Hunt) (expense : ExpenseReport)
    (hnodup : hunt.reporters.Nodup) (hnew : expense.reporter ∉ hunt.reporters) :
    ∃ hunt', mergeAndRecompute hunt expense = Except.ok hunt' ∧
      hunt'.loot = hunt.loot ∧
      hunt'.expenses.map Expense.report
        = hunt.expenses.map Expense.report ++ [(expense.reporter, toNumber expense.amount)] ∧
      hunt'.expenses = calculateBalance hunt (hunt.expenses ++ [parseExpense expense]) ∧
      calculateBalance hunt' hunt'.expenses = hunt'.expenses := by
  refine ⟨_, mergeAndRecompute_push hunt expense hnodup hnew, rfl, ?_, rfl, ?_⟩
  · simp only [calculateBalance_report, List.map_append, List.map_singleton]
    rfl
  · exact calculateBalance_idem hunt _ _ rfl

theorem mergeAndRecompute_new_reporter_witness :
    ∃ hunt', mergeAndRecompute
        ⟨"h", 1000, [⟨JsNum.int 100, "A", JsNum.int 450⟩, ⟨JsNum.int 200, "B", JsNum.int 550⟩]⟩
        ⟨RawAmount.numeric 50, "C", "h"⟩ = Except.ok hunt' ∧
      hunt'.loot = 1000 ∧
      hunt'.expenses.map Expense.report
        = [("A", JsNum.int 100), ("B", JsNum.int 200)] ++ [("C", JsNum.int 50)] ∧
      hunt'.expenses = calculateBalance
        ⟨"h", 1000, [⟨JsNum.int 100, "A", JsNum.int 450⟩, ⟨JsNum.int 200, "B", JsNum.int 550⟩]⟩
        ([⟨JsNum.int 100, "A", JsNum.int 450⟩, ⟨JsNum.int 200, "B", JsNum.int 550⟩] ++
          [parseExpense ⟨RawAmount.numeric 50, "C", "h"⟩]) ∧
      calculateBalance hunt' hunt'.expenses = hunt'.expenses :=
  mergeAndRecompute_new_reporter
    ⟨"h", 1000, [⟨JsNum.int 100, "A", JsNum.int 450⟩, ⟨JsNum.int 200, "B", JsNum.int 550⟩]⟩
    ⟨RawAmount.numeric 50, "C", "h"⟩ (by decide) (by decide)

/-- Example 3 of the spec: C reporting 50 into the hunt of example 2 gives
A = 316, B = 416, C = 266. -/
theorem mergeAndRecompute_example_three :
    mergeAndRecompute
        ⟨"h", 1000, [⟨JsNum.int 100, "A", JsNum.int 450⟩, ⟨JsNum.int 200, "B", JsNum.int 550⟩]⟩
        ⟨RawAmount.numeric 50, "C", "h"⟩
      = Except.ok ⟨"h", 1000, [⟨JsNum.int 100, "A", JsNum.int 316⟩,
          ⟨JsNum.int 200, "B", JsNum.int 416⟩, ⟨JsNum.int 50, "C", JsNum.int 266⟩]⟩ := by
  rfl

/-- C6. Existing reporter: on a hunt with pairwise-distinct reporters and a report
whose reporter is among them, `persistExpense` succeeds, keeps the loot, and yields a
list that pairs off with the old one entry by entry: same reporter, the amount of the
report for the reporter of the report and the old amount for everyone else; the stored
balances are those `calculateBalance` computes from the loot and the updated amounts. -/
theorem mergeAndRecompute_existing_reporter (hunt : Hunt) (expense : ExpenseReport)
    (hnodup : hunt.reporters.Nodup) (hmem : expense.reporter ∈ hunt.reporters) :
    ∃ hunt', mergeAndRecompute hunt expense = Except.ok hunt' ∧
      hunt'.loot = hunt.loot ∧
      List.Forall₂
        (fun (old new : Expense) => new.reporter = old.reporter ∧
          new.amount =
            if old.reporter = expense.reporter then toNumber expense.amount else old.amount)
        hunt.expenses hunt'.expenses ∧
      calculateBalance hunt' hunt'.expenses = hunt'.expenses := by
  refine ⟨_, mergeAndRecompute_update hunt expense hnodup hmem, rfl, ?_, ?_⟩
  · simp only [calculateBalance_eq_map, updatedData, List.map_map]
    rw [List.forall₂_map_right_iff, List.forall₂_same]
    intro e _
    by_cases h : e.reporter = expense.reporter
    · simp [h, parseExpense]
    · simp [h, parseExpense]
  · exact calculateBalance_idem hunt _ _ rfl

theorem mergeAndRecompute_existing_reporter_witness :
    ∃ hunt', mergeAndRecompute
        ⟨"h", 1000, [⟨JsNum.int 100, "A", JsNum.int 450⟩, ⟨JsNum.int 200, "B", JsNum.int 550⟩]⟩
        ⟨RawAmount.numeric 500, "A", "h"⟩ = Except.ok hunt' ∧
      hunt'.loot = 1000 ∧
      List.Forall₂
        (fun (old new : Expense) => new.reporter = old.reporter ∧
          new.amount = if old.reporter = "A" then toNumber (RawAmount.numeric 500) else old.amount)
        [⟨JsNum.int 100, "A", JsNum.int 450⟩, ⟨JsNum.int 200, "B", JsNum.int 550⟩]
        hunt'.expenses ∧
      calculateBalance hunt' hunt'.expenses = hunt'.expenses :=
  mergeAndRecompute_existing_reporter
    ⟨"h", 1000, [⟨JsNum.int 100, "A", JsNum.int 450⟩, ⟨JsNum.int 200, "B", JsNum.int 550⟩]⟩
    ⟨RawAmount.numeric 500, "A", "h"⟩ (by decide) (by decide)

/-- Example 4 of the spec: A re-reporting 500 in the hunt of example 2 gives
A = 650, B = 350. -/
theorem mergeAndRecompute_example_four :
    mergeAndRecompute
        ⟨"h", 1000, [⟨JsNum.int 100, "A", JsNum.int 450⟩, ⟨JsNum.int 200, "B", JsNum.int 550⟩]⟩
        ⟨RawAmount.numeric 500, "A", "h"⟩
      = Except.ok ⟨"h", 1000, [⟨JsNum.int 500, "A", JsNum.int 650⟩,
          ⟨JsNum.int 200, "B", JsNum.int 350⟩]⟩ := by
  rfl

/-- C9. The write-back of `persistExpense` never meets a stored reporter without a
calculated entry: for every hunt and every report the merge-and-recompute step returns
a hunt, it does not throw. -/
theorem mergeAndRecompute_ok (hunt : Hunt) (expense : ExpenseReport) :
    ∃ hunt', mergeAndRecompute hunt expense = Except.ok hunt' := by
  unfold mergeAndRecompute
  simp only [copy_eq]
  cases hfind : List.find? (fun data => decide (data.reporter = (parseExpense expense).reporter))
      hunt.expenses with
  | some d =>
    simp only []
    obtain ⟨out, hout⟩ := writeBack_ok
      (calculateBalance hunt (updatedData hunt.expenses (parseExpense expense))) hunt.expenses
      (by
        intro p hp
        rw [calculateBalance_reporter, updatedData_reporter]
        exact List.mem_map_of_mem _ hp)
    unfold updatedData at hout
    rw [hout]
    exact ⟨_, rfl⟩
  | none =>
    simp only []
    obtain ⟨out, hout⟩ := writeBack_ok
      (calculateBalance { hunt with expenses := hunt.expenses ++ [parseExpense expense] }
        (hunt.expenses ++ [parseExpense expense]))
      (hunt.expenses ++ [parseExpense expense])
      (by
        intro p hp
        rw [calculateBalance_reporter]
        exact List.mem_map_of_mem _ hp)
    have hparsed : (⟨(parseExpense expense).amount, (parseExpense expense).reporter,
        JsNum.int 0⟩ : Expense) = parseExpense expense := rfl
    rw [hparsed, hout]
    exact ⟨_, rfl⟩

/-- C3. Reconciling the same report twice: on a hunt with pairwise-distinct reporters
the merge-and-recompute step succeeds, and applying it again with the same report
returns the very hunt the first application produced (reporters, amounts and balances
unchanged). -/
theorem mergeAndRecompute_idempotent (hunt : Hunt) (expense : ExpenseReport)
    (hnodup : hunt.reporters.Nodup) :
    ∃ hunt', mergeAndRecompute hunt expense = Except.ok hunt' ∧
      mergeAndRecompute hunt' expense = Except.ok hunt' := by
  obtain ⟨h1, hstep, _, hnodup1, hrep1, hfix1, hamount1⟩ :=
    mergeAndRecompute_reporters hunt expense hnodup
  refine ⟨h1, hstep, ?_⟩
  have hmem1 : expense.reporter ∈ h1.reporters := (hrep1 _).mpr (Or.inr rfl)
  rw [mergeAndRecompute_update h1 expense hnodup1 hmem1]
  have hsame : calculateBalance h1 (updatedData h1.expenses (parseExpense expense))
      = calculateBalance h1 h1.expenses :=
    calculateBalance_congr h1 h1 _ _ rfl
      (updatedData_report_fix h1.expenses (parseExpense expense) hamount1)
  rw [hsame, hfix1]

theorem mergeAndRecompute_idempotent_witness :
    ∃ hunt', mergeAndRecompute
        ⟨"h", 1000, [⟨JsNum.int 100, "A", JsNum.int 450⟩, ⟨JsNum.int 200, "B", JsNum.int 550⟩]⟩
        ⟨RawAmount.numeric 50, "C", "h"⟩ = Except.ok hunt' ∧
      mergeAndRecompute hunt' ⟨RawAmount.numeric 50, "C", "h"⟩ = Except.ok hunt' :=
  mergeAndRecompute_idempotent
    ⟨"h", 1000, [⟨JsNum.int 100, "A", JsNum.int 450⟩, ⟨JsNum.int 200, "B", JsNum.int 550⟩]⟩
    ⟨RawAmount.numeric 50, "C", "h"⟩ (by decide)

/-! ## Hunts reachable from a seed -/

/-- C4. Upsert invariant: starting from the hunt built by `persistLoot`, every finite
sequence of `persistExpense` calls succeeds and leaves pairwise-distinct reporters,
which are exactly the seed reporter and the reporters of the reports applied. -/
theorem persistExpenses_upsert (code : String) (report : SessionReport)
    (reports : List ExpenseReport) :
    ∃ hunt, persistExpenses (persistLoot code report) reports = Except.ok hunt ∧
      hunt.reporters.Nodup ∧
      ∀ x, x ∈ hunt.reporters ↔
        x = report.reporter ∨ x ∈ reports.map ExpenseReport.reporter := by
  obtain ⟨h, hrun, _, hnodup, hrep, _⟩ :=
    persistExpenses_invariant reports (persistLoot code report)
      (List.nodup_singleton report.reporter)
  refine ⟨h, hrun, hnodup, ?_⟩
  intro x
  rw [hrep x]
  have : x ∈ (persistLoot code report).reporters ↔ x = report.reporter := by
    simp [Hunt.reporters, persistLoot, parseExpense]
  rw [this]

/-- C8. Stored balances are derived: in every hunt reached from a `persistLoot` seed
(integer supplies, integer loot below `2 ^ 53`, not both zero) by a finite sequence of
`persistExpense` calls, the stored balances are the ones `calculateBalance` computes
from the loot and the stored amounts. -/
theorem persistExpenses_balances_derived (code reporter : String) (supplies loot : ℕ)
    (reports : List ExpenseReport)
    (hloot : loot < 2 ^ 53) (hpos : ¬ (loot = 0 ∧ supplies = 0)) :
    ∃ hunt,
      persistExpenses (persistLoot code ⟨RawAmount.numeric supplies, reporter, loot⟩) reports
        = Except.ok hunt ∧
      (calculateBalance hunt hunt.expenses).map Expense.balance
        = hunt.expenses.map Expense.balance := by
  obtain ⟨h, hrun, _, _, _, hfix⟩ :=
    persistExpenses_invariant reports
      (persistLoot code ⟨RawAmount.numeric supplies, reporter, loot⟩)
      (List.nodup_singleton reporter)
  refine ⟨h, hrun, ?_⟩
  rw [hfix (calculateBalance_single _ supplies reporter (JsNum.int loot)
    (isDouble_of_lt loot hloot) hpos)]

theorem persistExpenses_balances_derived_witness :
    500 < 2 ^ 53 ∧ ¬ (500 = 0 ∧ 50 = 0) ∧
    ∃ hunt,
      persistExpenses (persistLoot "h" ⟨RawAmount.numeric 50, "A", 500⟩)
          [⟨RawAmount.numeric 700, "B", "h"⟩, ⟨RawAmount.numeric 20, "A", "h"⟩]
        = Except.ok hunt ∧
      (calculateBalance hunt hunt.expenses).map Expense.balance
        = hunt.expenses.map Expense.balance :=
  ⟨by decide, by decide,
    persistExpenses_balances_derived "h" "A" 50 500
      [⟨RawAmount.numeric 700, "B", "h"⟩, ⟨RawAmount.numeric 20, "A", "h"⟩]
      (by decide) (by decide)⟩

/-! ## Shape of the result -/

/-- C16. `calculateBalance` returns the same sequence with only the balance changed:
the result pairs off with the input entry by entry (so it has the same length), each
result entry carrying the reporter and the amount of the input entry at its position. -/
theorem calculateBalance_frame (hunt : Hunt) (expensesData : List Expense) :
    List.Forall₂ (fun (e r : Expense) => r.reporter = e.reporter ∧ r.amount = e.amount)
      expensesData (calculateBalance hunt expensesData) := by
  rw [calculateBalance_eq_map, List.forall₂_map_right_iff, List.forall₂_same]
  intro e _
  exact ⟨rfl, rfl⟩

theorem add_right_comm (x y z : JsNum) : (x.add y).add z = (x.add z).add y := by
  cases x <;> cases y <;> cases z <;> simp [JsNum.add, Nat.add_right_comm]

theorem totalExpenses_perm (es es' : List Expense) (hperm : es.Perm es') :
    totalExpenses es = totalExpenses es' := by
  unfold totalExpenses
  exact hperm.foldl_eq' (fun x _ y _ z => add_right_comm z x.amount y.amount) _

/-- C15. Insertion order does not matter for integer amounts whose total stays below
`2 ^ 53`, with a loot below `2 ^ 53`: for a permutation `es'` of `es`, one and the same
assignment of balances to entries produces the result on `es` and the result on `es'`
(entry by entry, in place), hence the result on `es'` is the same permutation of the
result on `es`.  Below `2 ^ 53` every partial sum of the `reduce` is exact in binary64,
so the total does not depend on the order, which is how the embedding takes it. -/
theorem calculateBalance_perm (hunt : Hunt) (es es' : List Expense) (hperm : es.Perm es')
    (_hint : ∀ e ∈ es, e.amount ≠ JsNum.nan) (_hbound : natTotal es < 2 ^ 53)
    (_hloot : hunt.loot < 2 ^ 53) :
    ∃ g : Expense → Expense,
      calculateBalance hunt es = es.map g ∧ calculateBalance hunt es' = es'.map g ∧
      (calculateBalance hunt es).Perm (calculateBalance hunt es') := by
  refine ⟨fun expense => { expense with
    balance := assignedBalance hunt.loot (totalExpenses es) es.length expense.amount },
    calculateBalance_eq_map hunt es, ?_, ?_⟩
  · rw [calculateBalance_eq_map, ← totalExpenses_perm es es' hperm, hperm.length_eq]
  · rw [calculateBalance_eq_map hunt es, calculateBalance_eq_map hunt es',
      ← totalExpenses_perm es es' hperm, ← hperm.length_eq]
    exact hperm.map _

theorem calculateBalance_perm_witness :
    ∃ g : Expense → Expense,
      calculateBalance ⟨"h", 1000, []⟩
          [⟨JsNum.int 100, "A", JsNum.int 0⟩, ⟨JsNum.int 200, "B", JsNum.int 0⟩]
        = [⟨JsNum.int 100, "A", JsNum.int 0⟩, ⟨JsNum.int 200, "B", JsNum.int 0⟩].map g ∧
      calculateBalance ⟨"h", 1000, []⟩
          [⟨JsNum.int 200, "B", JsNum.int 0⟩, ⟨JsNum.int 100, "A", JsNum.int 0⟩]
        = [⟨JsNum.int 200, "B", JsNum.int 0⟩, ⟨JsNum.int 100, "A", JsNum.int 0⟩].map g ∧
      (calculateBalance ⟨"h", 1000, []⟩
          [⟨JsNum.int 100, "A", JsNum.int 0⟩, ⟨JsNum.int 200, "B", JsNum.int 0⟩]).Perm
        (calculateBalance ⟨"h", 1000, []⟩
          [⟨JsNum.int 200, "B", JsNum.int 0⟩, ⟨JsNum.int 100, "A", JsNum.int 0⟩]) :=
  calculateBalance_perm ⟨"h", 1000, []⟩
    [⟨JsNum.int 100, "A", JsNum.int 0⟩, ⟨JsNum.int 200, "B", JsNum.int 0⟩]
    [⟨JsNum.int 200, "B", JsNum.int 0⟩, ⟨JsNum.int 100, "A", JsNum.int 0⟩]
    (List.Perm.swap _ _ _) (by decide) (by decide) (by decide)

/-! ## The profit case in sum -/

theorem calculateBalance_profit_map (hunt : Hunt) (expensesData : List Expense)
    (hint : ∀ e ∈ expensesData, e.amount ≠ JsNum.nan)
    (hlt : natTotal expensesData < hunt.loot) :
    calculateBalance hunt expensesData = expensesData.map fun expense =>
      { expense with
        balance := JsNum.int
          (expense.amount.toNat + (hunt.loot - natTotal expensesData) / expensesData.length) } := by
  rw [calculateBalance_eq_map, totalExpenses_int expensesData hint]
  apply List.map_congr_left
  intro e he
  have ha := int_of_ne_nan e.amount (hint e he)
  rw [ha]
  simp [assignedBalance, hlt, add_int_int, JsNum.toNat]

theorem balanceTotal_map_int (expensesData : List Expense) (f : Expense → ℕ) :
    balanceTotal (expensesData.map fun expense => { expense with balance := JsNum.int (f expense) })
      = (expensesData.map f).sum := by
  simp [balanceTotal, List.map_map, Function.comp_def, JsNum.toNat]

theorem sum_map_add_const (expensesData : List Expense) (q : ℕ) :
    (expensesData.map fun expense => expense.amount.toNat + q).sum
      = natTotal expensesData + expensesData.length * q := by
  induction expensesData with
  | nil => simp [natTotal]
  | cons e es ih =>
    simp only [List.map_cons, List.sum_cons, ih, natTotal, List.length_cons]
    ring

/-- C13. Drift in the profit case: with integer amounts of total `T` below the loot `L`,
itself below `2 ^ 53`, and `n > 0` entries, all balances are integers and their sum `S`
obeys `S + (L - T) mod n = L`; the drift `(L - T) mod n` is below `n`.  Below `2 ^ 53`
the integer arithmetic of the profit branch is exact in binary64. -/
theorem calculateBalance_profit_drift (hunt : Hunt) (expensesData : List Expense)
    (hne : expensesData ≠ [])
    (hint : ∀ e ∈ expensesData, e.amount ≠ JsNum.nan)
    (hlt : natTotal expensesData < hunt.loot) (_hloot : hunt.loot < 2 ^ 53) :
    (∀ r ∈ calculateBalance hunt expensesData, r.balance ≠ JsNum.nan) ∧
    balanceTotal (calculateBalance hunt expensesData)
      + (hunt.loot - natTotal expensesData) % expensesData.length = hunt.loot ∧
    (hunt.loot - natTotal expensesData) % expensesData.length < expensesData.length := by
  have hlen : 0 < expensesData.length := List.length_pos.mpr hne
  rw [calculateBalance_profit_map hunt expensesData hint hlt]
  refine ⟨?_, ?_, Nat.mod_lt _ hlen⟩
  · intro r hr
    obtain ⟨e, _, rfl⟩ := List.mem_map.mp hr
    simp
  · rw [balanceTotal_map_int, sum_map_add_const]
    have hdm := Nat.div_add_mod (hunt.loot - natTotal expensesData) expensesData.length
    omega

theorem calculateBalance_profit_drift_witness :
    (∀ r ∈ calculateBalance ⟨"h", 1000, []⟩
        [⟨JsNum.int 100, "A", JsNum.int 0⟩, ⟨JsNum.int 200, "B", JsNum.int 0⟩,
         ⟨JsNum.int 50, "C", JsNum.int 0⟩], r.balance ≠ JsNum.nan) ∧
    balanceTotal (calculateBalance ⟨"h", 1000, []⟩
        [⟨JsNum.int 100, "A", JsNum.int 0⟩, ⟨JsNum.int 200, "B", JsNum.int 0⟩,
         ⟨JsNum.int 50, "C", JsNum.int 0⟩]) + (1000 - 350) % 3 = 1000 ∧
    (1000 - 350) % 3 < 3 :=
  calculateBalance_profit_drift ⟨"h", 1000, []⟩
    [⟨JsNum.int 100, "A", JsNum.int 0⟩, ⟨JsNum.int 200, "B", JsNum.int 0⟩,
     ⟨JsNum.int 50, "C", JsNum.int 0⟩] (by decide) (by decide) (by decide) (by decide)

/-! ## One reporter -/

/-- C14. With one reporter the allocator gives them everything: for an integer loot `L`
below `2 ^ 53` and an integer amount `a`, not both zero, `calculateBalance` returns
the balance `L` for a single entry; in particular it reproduces the seed expense that
`persistLoot` builds. -/
theorem calculateBalance_one_reporter (hunt : Hunt) (a : ℕ) (code reporter : String)
    (balance : JsNum)
    (hloot : hunt.loot < 2 ^ 53) (hpos : ¬ (hunt.loot = 0 ∧ a = 0)) :
    calculateBalance hunt [⟨JsNum.int a, reporter, balance⟩]
      = [⟨JsNum.int a, reporter, JsNum.int hunt.loot⟩] ∧
    calculateBalance (persistLoot code ⟨RawAmount.numeric a, reporter, hunt.loot⟩)
        (persistLoot code ⟨RawAmount.numeric a, reporter, hunt.loot⟩).expenses
      = (persistLoot code ⟨RawAmount.numeric a, reporter, hunt.loot⟩).expenses :=
  ⟨calculateBalance_single hunt a reporter balance (isDouble_of_lt hunt.loot hloot) hpos,
    calculateBalance_single (persistLoot code ⟨RawAmount.numeric a, reporter, hunt.loot⟩)
      a reporter (JsNum.int hunt.loot) (isDouble_of_lt hunt.loot hloot) hpos⟩

theorem calculateBalance_one_reporter_witness :
    500 < 2 ^ 53 ∧ ¬ (500 = 0 ∧ 700 = 0) ∧
    calculateBalance ⟨"h", 500, []⟩ [⟨JsNum.int 700, "A", JsNum.int 0⟩]
      = [⟨JsNum.int 700, "A", JsNum.int 500⟩] :=
  ⟨by decide, by decide,
    (calculateBalance_one_reporter ⟨"h", 500, []⟩ 700 "h" "A" (JsNum.int 0)
      (by decide) (by decide)).1⟩

/-! ## The comment in `persistExpense` -/

/-- C17. The comment against the code.  With loot 1000 and expenses 100 and 200 (sum
lower than the loot) `calculateBalance` gives 450 and 550, each expense plus an even
split of the profit, where the comment prescribes the percentage shares 333 and 666.
With loot 100 and the same expenses (sum higher than the loot) it gives the percentage
shares 33 and 66, where the comment prescribes an even split of `100 - 300`. -/
theorem calculateBalance_against_comment :
    calculateBalance ⟨"h", 1000, []⟩
        [⟨JsNum.int 100, "A", JsNum.int 0⟩, ⟨JsNum.int 200, "B", JsNum.int 0⟩]
      = [⟨JsNum.int 100, "A", JsNum.int 450⟩, ⟨JsNum.int 200, "B", JsNum.int 550⟩] ∧
    commentShare 1000 100 300 2 = 333 ∧ commentShare 1000 200 300 2 = 666 ∧
    calculateBalance ⟨"h", 100, []⟩
        [⟨JsNum.int 100, "A", JsNum.int 0⟩, ⟨JsNum.int 200, "B", JsNum.int 0⟩]
      = [⟨JsNum.int 100, "A", JsNum.int 33⟩, ⟨JsNum.int 200, "B", JsNum.int 66⟩] ∧
    commentShare 100 100 300 2 = -100 ∧ commentShare 100 200 300 2 = -100 := by
  decide

/-! ## Amounts that are not numbers -/

theorem foldl_add_nan (expensesData : List Expense) :
    expensesData.foldl (fun (total : JsNum) (data : Expense) => total.add data.amount)
      JsNum.nan = JsNum.nan := by
  induction expensesData with
  | nil => rfl
  | cons e es ih =>
    rw [List.foldl_cons]
    exact ih

theorem foldl_add_of_nan (expensesData : List Expense)
    (h : ∃ e ∈ expensesData, e.amount = JsNum.nan) (start : JsNum) :
    expensesData.foldl (fun (total : JsNum) (data : Expense) => total.add data.amount)
      start = JsNum.nan := by
  induction expensesData generalizing start with
  | nil =>
    obtain ⟨e, he, _⟩ := h
    simp at he
  | cons x xs ih =>
    rw [List.foldl_cons]
    obtain ⟨e, he, hnan⟩ := h
    rcases List.mem_cons.mp he with hx | hx
    · subst hx
      rw [hnan]
      have : start.add JsNum.nan = JsNum.nan := by cases start <;> rfl
      rw [this]
      exact foldl_add_nan xs
    · exact ih ⟨e, hx, hnan⟩ _

/-- One amount that is `NaN` makes every balance `NaN`. -/
theorem calculateBalance_of_nan (hunt : Hunt) (expensesData : List Expense)
    (h : ∃ e ∈ expensesData, e.amount = JsNum.nan) :
    ∀ r ∈ calculateBalance hunt expensesData, r.balance = JsNum.nan := by
  have htotal : totalExpenses expensesData = JsNum.nan :=
    foldl_add_of_nan expensesData h (JsNum.int 0)
  rw [calculateBalance_eq_map, htotal]
  intro r hr
  obtain ⟨e, _, rfl⟩ := List.mem_map.mp hr
  cases hamount : e.amount <;> simp [assignedBalance, shortfallBalance, hamount]

/-- A report whose amount is not a number, in the hunt of example 2: `parseExpense`
returns an expense with amount `NaN`, and the hunt that `persistExpense` hands to
`hunt.save()` has `NaN` as A's amount and as both balances. -/
theorem persistExpense_notNumeric_example :
    parseExpenseCall ⟨RawAmount.notNumeric, "A", "h"⟩
      = Except.ok ⟨JsNum.nan, "A", JsNum.int 0⟩ ∧
    persistExpense
        (some ⟨"h", 1000,
          [⟨JsNum.int 100, "A", JsNum.int 450⟩, ⟨JsNum.int 200, "B", JsNum.int 550⟩]⟩)
        ⟨RawAmount.notNumeric, "A", "h"⟩
      = Except.ok ⟨"h", 1000,
          [⟨JsNum.nan, "A", JsNum.nan⟩, ⟨JsNum.int 200, "B", JsNum.nan⟩]⟩ :=
  ⟨rfl, rfl⟩

/-- For a report whose amount `Number(...)` turns into `NaN`, `parseExpense` returns
the amount `NaN` with balance 0, and on a hunt with pairwise-distinct reporters
`persistExpense` reaches `hunt.save()` with a hunt in which the reporter of the report
has the amount `NaN` and every balance is `NaN`. -/
theorem persistExpense_notNumeric (hunt : Hunt) (reporter code : String)
    (hnodup : hunt.reporters.Nodup) :
    parseExpenseCall ⟨RawAmount.notNumeric, reporter, code⟩
      = Except.ok ⟨JsNum.nan, reporter, JsNum.int 0⟩ ∧
    ∃ hunt', persistExpense (some hunt) ⟨RawAmount.notNumeric, reporter, code⟩
        = Except.ok hunt' ∧
      (∃ e ∈ hunt'.expenses, e.reporter = reporter ∧ e.amount = JsNum.nan) ∧
      ∀ e ∈ hunt'.expenses, e.balance = JsNum.nan := by
  refine ⟨rfl, ?_⟩
  obtain ⟨h1, hstep, _, _, hrep, hfix, hamount⟩ :=
    mergeAndRecompute_reporters hunt ⟨RawAmount.notNumeric, reporter, code⟩ hnodup
  have hmem : reporter ∈ h1.reporters := (hrep reporter).mpr (Or.inr rfl)
  obtain ⟨e, he, her⟩ := List.mem_map.mp hmem
  have hnan : e.amount = JsNum.nan := hamount e he her
  refine ⟨h1, hstep, ⟨e, he, her, hnan⟩, ?_⟩
  intro x hx
  rw [← hfix] at hx
  exact calculateBalance_of_nan h1 h1.expenses ⟨e, he, hnan⟩ x hx

theorem persistExpense_notNumeric_witness :
    ∃ hunt', persistExpense
        (some ⟨"h", 1000,
          [⟨JsNum.int 100, "A", JsNum.int 450⟩, ⟨JsNum.int 200, "B", JsNum.int 550⟩]⟩)
        ⟨RawAmount.notNumeric, "C", "h"⟩ = Except.ok hunt' ∧
      (∃ e ∈ hunt'.expenses, e.reporter = "C" ∧ e.amount = JsNum.nan) ∧
      ∀ e ∈ hunt'.expenses, e.balance = JsNum.nan :=
  (persistExpense_notNumeric
    ⟨"h", 1000, [⟨JsNum.int 100, "A", JsNum.int 450⟩, ⟨JsNum.int 200, "B", JsNum.int 550⟩]⟩
    "C" "h" (by decide)).2

/-! ## Binary64 rounding: properties -/

theorem rne_le (n d c : ℕ) (hd : 0 < d) (h : n ≤ c * d) : rne n d ≤ c := by
  have hq : n / d ≤ c := Nat.div_le_of_le_mul (by rw [Nat.mul_comm]; exact h)
  have hdm := Nat.div_add_mod n d
  have hr := Nat.mod_lt n hd
  unfold rne
  simp only []
  by_cases hc : n / d < c
  · split
    · omega
    · split
      · omega
      · split <;> omega
  · have hqc : n / d = c := by omega
    have hmod : n % d = 0 := by
      rw [hqc, Nat.mul_comm] at hdm
      omega
    simp [hmod, hd, hqc]

theorem rne_ge (n d c : ℕ) (hd : 0 < d) (h : c * d ≤ n) : c ≤ rne n d := by
  have hq : c ≤ n / d := (Nat.le_div_iff_mul_le hd).mpr h
  unfold rne
  simp only []
  split
  · omega
  · split
    · omega
    · split <;> omega

/-- The rounded quotient is within one half of the exact quotient. -/
theorem rne_near (n d : ℕ) (hd : 0 < d) :
    2 * (rne n d * d) ≤ 2 * n + d ∧ 2 * n ≤ 2 * (rne n d * d) + d := by
  have hdm : n / d * d + n % d = n := by
    rw [Nat.mul_comm]
    exact Nat.div_add_mod n d
  have hr := Nat.mod_lt n hd
  have hsucc : (n / d + 1) * d = n / d * d + d := by ring
  unfold rne
  simp only []
  split
  · constructor <;> omega
  · split
    · rw [hsucc]
      constructor <;> omega
    · split
      · constructor <;> omega
      · rw [hsucc]
        constructor <;> omega

theorem bitLength_zero (fuel : ℕ) : bitLength fuel 0 = 0 := by
  cases fuel <;> simp [bitLength]

theorem bitLength_spec (fuel : ℕ) : ∀ n : ℕ, 0 < n → n ≤ fuel →
    2 ^ (bitLength fuel n - 1) ≤ n ∧ n < 2 ^ bitLength fuel n := by
  induction fuel with
  | zero => intro n hn hle; omega
  | succ fuel ih =>
    intro n hn hle
    have h0 : n ≠ 0 := by omega
    simp only [bitLength, h0, if_false, Nat.add_sub_cancel]
    by_cases hhalf : n / 2 = 0
    · have h1 : n = 1 := by omega
      subst h1
      simp [bitLength_zero]
    · have hpos : 0 < n / 2 := Nat.pos_of_ne_zero hhalf
      obtain ⟨hlo, hhi⟩ := ih (n / 2) hpos (by omega)
      have hb : 1 ≤ bitLength fuel (n / 2) := by
        by_contra hcon
        have : bitLength fuel (n / 2) = 0 := by omega
        rw [this] at hhi
        simp at hhi
        omega
      have hpow : 2 ^ bitLength fuel (n / 2) = 2 * 2 ^ (bitLength fuel (n / 2) - 1) := by
        conv_lhs => rw [← Nat.sub_add_cancel hb]
        rw [pow_succ]
        ring
      constructor
      · rw [hpow]
        omega
      · rw [pow_succ]
        omega

theorem ilog2_spec (n : ℕ) (hn : 0 < n) : 2 ^ ilog2 n ≤ n ∧ n < 2 ^ (ilog2 n + 1) := by
  obtain ⟨hlo, hhi⟩ := bitLength_spec n n hn (Nat.le_refl n)
  have hb : 1 ≤ bitLength n n := by
    by_contra hcon
    have : bitLength n n = 0 := by omega
    rw [this] at hhi
    simp at hhi
    omega
  unfold ilog2
  rw [Nat.sub_add_cancel hb]
  exact ⟨hlo, hhi⟩


theorem zpow_two_split (z : ℤ) :
    (2 : ℚ) ^ z = (2 : ℚ) ^ z.toNat / (2 : ℚ) ^ (-z).toNat := by
  rcases Int.le_total 0 z with h | h
  · obtain ⟨k, rfl⟩ := Int.eq_ofNat_of_zero_le h
    simp
  · obtain ⟨k, hk⟩ := Int.eq_ofNat_of_zero_le (Int.neg_nonneg_of_nonpos h)
    have hz : z = -(k : ℤ) := by omega
    subst hz
    simp [zpow_neg]

/-- The test in `binade` compares the quotient with a power of two. -/
theorem scaled_le_iff (n d : ℕ) (hd : 0 < d) (z : ℤ) :
    d * 2 ^ z.toNat ≤ n * 2 ^ (-z).toNat ↔ (2 : ℚ) ^ z ≤ (n : ℚ) / d := by
  have hdq : (0 : ℚ) < d := by exact_mod_cast hd
  have hm : (0 : ℚ) < (2 : ℚ) ^ (-z).toNat := by positivity
  rw [zpow_two_split, div_le_div_iff₀ hm hdq]
  constructor
  · intro h
    have : ((d * 2 ^ z.toNat : ℕ) : ℚ) ≤ ((n * 2 ^ (-z).toNat : ℕ) : ℚ) := by exact_mod_cast h
    push_cast at this
    linarith
  · intro h
    have : ((d * 2 ^ z.toNat : ℕ) : ℚ) ≤ ((n * 2 ^ (-z).toNat : ℕ) : ℚ) := by
      push_cast
      linarith
    exact_mod_cast this

/-- `binade n d` is the binary exponent of `n / d`. -/
theorem binade_spec (n d : ℕ) (hn : 0 < n) (hd : 0 < d) :
    (2 : ℚ) ^ binade n d ≤ (n : ℚ) / d ∧ (n : ℚ) / d < (2 : ℚ) ^ (binade n d + 1) := by
  obtain ⟨hnlo, hnhi⟩ := ilog2_spec n hn
  obtain ⟨hdlo, hdhi⟩ := ilog2_spec d hd
  have hdq : (0 : ℚ) < d := by exact_mod_cast hd
  have hnlo' : (2 : ℚ) ^ (ilog2 n) ≤ n := by exact_mod_cast hnlo
  have hnhi' : (n : ℚ) < (2 : ℚ) ^ (ilog2 n + 1) := by exact_mod_cast hnhi
  have hdlo' : (2 : ℚ) ^ (ilog2 d) ≤ d := by exact_mod_cast hdlo
  have hdhi' : (d : ℚ) < (2 : ℚ) ^ (ilog2 d + 1) := by exact_mod_cast hdhi
  have h2 : (2 : ℚ) ≠ 0 := by norm_num
  -- the quotient lies strictly between `2 ^ (e0 - 1)` and `2 ^ (e0 + 1)`
  have hupper : (n : ℚ) / d < (2 : ℚ) ^ ((ilog2 n : ℤ) - (ilog2 d : ℤ) + 1) := by
    have : (2 : ℚ) ^ ((ilog2 n : ℤ) - (ilog2 d : ℤ) + 1)
        = (2 : ℚ) ^ (ilog2 n + 1) / (2 : ℚ) ^ (ilog2 d) := by
      rw [show ((ilog2 n : ℤ) - (ilog2 d : ℤ) + 1) = ((ilog2 n + 1 : ℕ) : ℤ) - ((ilog2 d : ℕ) : ℤ)
        by push_cast; ring, zpow_sub₀ h2, zpow_natCast, zpow_natCast]
    rw [this, div_lt_div_iff₀ hdq (by positivity)]
    calc (n : ℚ) * 2 ^ ilog2 d < 2 ^ (ilog2 n + 1) * 2 ^ ilog2 d := by
          apply mul_lt_mul_of_pos_right hnhi' (by positivity)
      _ ≤ 2 ^ (ilog2 n + 1) * d := by
          apply mul_le_mul_of_nonneg_left hdlo' (by positivity)
  have hlower : (2 : ℚ) ^ ((ilog2 n : ℤ) - (ilog2 d : ℤ) - 1) ≤ (n : ℚ) / d := by
    have : (2 : ℚ) ^ ((ilog2 n : ℤ) - (ilog2 d : ℤ) - 1)
        = (2 : ℚ) ^ (ilog2 n) / (2 : ℚ) ^ (ilog2 d + 1) := by
      rw [show ((ilog2 n : ℤ) - (ilog2 d : ℤ) - 1) = ((ilog2 n : ℕ) : ℤ) - ((ilog2 d + 1 : ℕ) : ℤ)
        by push_cast; ring, zpow_sub₀ h2, zpow_natCast, zpow_natCast]
    rw [this, div_le_div_iff₀ (by positivity) hdq]
    calc (2 : ℚ) ^ ilog2 n * d ≤ n * d := by
          apply mul_le_mul_of_nonneg_right hnlo' (le_of_lt hdq)
      _ ≤ n * 2 ^ (ilog2 d + 1) := by
          apply mul_le_mul_of_nonneg_left (le_of_lt hdhi') (by positivity)
  unfold binade
  simp only []
  by_cases htest : d * 2 ^ ((ilog2 n : ℤ) - (ilog2 d : ℤ)).toNat
      ≤ n * 2 ^ (-((ilog2 n : ℤ) - (ilog2 d : ℤ))).toNat
  · rw [if_pos htest]
    exact ⟨(scaled_le_iff n d hd _).mp htest, hupper⟩
  · rw [if_neg htest]
    refine ⟨hlower, ?_⟩
    rw [Int.sub_add_cancel]
    exact lt_of_not_le (fun hle => htest ((scaled_le_iff n d hd _).mpr hle))

/-- The significand of a rounding: `roundReduced n d` scales `n / d` by a power of two
into `[2 ^ 52, 2 ^ 53)`, rounds to the nearest integer, and scales back. -/
theorem roundReduced_spec (n d : ℕ) (hn : 0 < n) (hd : 0 < d) :
    ∃ p m : ℕ, roundReduced n d = ⟨rne (n * 2 ^ p) (d * 2 ^ m) * 2 ^ m, 2 ^ p⟩ ∧
      2 ^ 52 * (d * 2 ^ m) ≤ n * 2 ^ p ∧ n * 2 ^ p < 2 ^ 53 * (d * 2 ^ m) ∧
      (p = 0 ∨ m = 0) := by
  obtain ⟨hlo, hhi⟩ := binade_spec n d hn hd
  have hn0 : n ≠ 0 := by omega
  refine ⟨(52 - binade n d).toNat, (-(52 - binade n d)).toNat, ?_, ?_, ?_, ?_⟩
  · simp [roundReduced, hn0]
  rotate_right
  · omega
  all_goals
    have hdq : (0 : ℚ) < d := by exact_mod_cast hd
    have h2 : (2 : ℚ) ≠ 0 := by norm_num
    have hsplit := zpow_two_split (52 - binade n d)
    have hm : (0 : ℚ) < (2 : ℚ) ^ (-(52 - binade n d)).toNat := by positivity
    have hp : (0 : ℚ) < (2 : ℚ) ^ (52 - binade n d).toNat := by positivity
    have hb : (0 : ℚ) < (2 : ℚ) ^ binade n d := by positivity
    have hprod : (2 : ℚ) ^ (52 - binade n d) * (2 : ℚ) ^ binade n d = 2 ^ 52 := by
      rw [← zpow_add₀ h2]
      norm_num
    have hprod' : (2 : ℚ) ^ (52 - binade n d) * (2 : ℚ) ^ (binade n d + 1) = 2 ^ 53 := by
      rw [← zpow_add₀ h2]
      rw [show (52 - binade n d + (binade n d + 1)) = ((53 : ℕ) : ℤ) by push_cast; ring,
        zpow_natCast]
    have hs : (0 : ℚ) < (2 : ℚ) ^ (52 - binade n d) := by positivity
  · -- lower bound
    have h1 : (2 : ℚ) ^ 52 ≤ (2 : ℚ) ^ (52 - binade n d) * ((n : ℚ) / d) := by
      rw [← hprod]
      exact mul_le_mul_of_nonneg_left hlo (le_of_lt hs)
    rw [hsplit] at h1
    have h2' : (2 : ℚ) ^ 52 * (d * 2 ^ (-(52 - binade n d)).toNat)
        ≤ n * 2 ^ (52 - binade n d).toNat := by
      have := mul_le_mul_of_nonneg_right h1 (le_of_lt (mul_pos hdq hm))
      calc (2 : ℚ) ^ 52 * (d * 2 ^ (-(52 - binade n d)).toNat)
          ≤ (2 : ℚ) ^ (52 - binade n d).toNat / (2 : ℚ) ^ (-(52 - binade n d)).toNat
              * ((n : ℚ) / d) * (d * 2 ^ (-(52 - binade n d)).toNat) := this
        _ = n * 2 ^ (52 - binade n d).toNat := by
            field_simp
            ring
    exact_mod_cast h2'
  · -- upper bound
    have h1 : (2 : ℚ) ^ (52 - binade n d) * ((n : ℚ) / d) < (2 : ℚ) ^ 53 := by
      rw [← hprod']
      exact mul_lt_mul_of_pos_left hhi hs
    rw [hsplit] at h1
    have h2' : (n : ℚ) * 2 ^ (52 - binade n d).toNat
        < (2 : ℚ) ^ 53 * (d * 2 ^ (-(52 - binade n d)).toNat) := by
      have := mul_lt_mul_of_pos_right h1 (mul_pos hdq hm)
      calc (n : ℚ) * 2 ^ (52 - binade n d).toNat
          = (2 : ℚ) ^ (52 - binade n d).toNat / (2 : ℚ) ^ (-(52 - binade n d)).toNat
              * ((n : ℚ) / d) * (d * 2 ^ (-(52 - binade n d)).toNat) := by
            field_simp
            ring
        _ < (2 : ℚ) ^ 53 * (d * 2 ^ (-(52 - binade n d)).toNat) := this
    exact_mod_cast h2'


theorem roundDouble_zero (x : Frac) (hnum : x.num = 0) : roundDouble x = ⟨0, 1⟩ := by
  simp [roundDouble, hnum, roundReduced]

/-- The significand of `roundDouble x` for a positive `x`: a reduced fraction `n / d`
equal to `x`, scaled into `[2 ^ 52, 2 ^ 53)` and rounded to the nearest integer. -/
theorem roundDouble_spec (x : Frac) (hnum : 0 < x.num) (hden : 0 < x.den) :
    ∃ n d p m : ℕ, 0 < n ∧ 0 < d ∧ n * x.den = x.num * d ∧
      roundDouble x = ⟨rne (n * 2 ^ p) (d * 2 ^ m) * 2 ^ m, 2 ^ p⟩ ∧
      2 ^ 52 * (d * 2 ^ m) ≤ n * 2 ^ p ∧ n * 2 ^ p < 2 ^ 53 * (d * 2 ^ m) ∧
      (p = 0 ∨ m = 0) := by
  have hg : 0 < Nat.gcd x.num x.den := Nat.gcd_pos_of_pos_right _ hden
  have hn : 0 < x.num / Nat.gcd x.num x.den :=
    Nat.div_pos (Nat.le_of_dvd hnum (Nat.gcd_dvd_left _ _)) hg
  have hd : 0 < x.den / Nat.gcd x.num x.den :=
    Nat.div_pos (Nat.le_of_dvd hden (Nat.gcd_dvd_right _ _)) hg
  obtain ⟨p, m, hr, hlo, hhi, hpm⟩ := roundReduced_spec _ _ hn hd
  refine ⟨_, _, p, m, hn, hd, ?_, hr, hlo, hhi, hpm⟩
  obtain ⟨a, ha⟩ := Nat.gcd_dvd_left x.num x.den
  obtain ⟨b, hb⟩ := Nat.gcd_dvd_right x.num x.den
  have h1 : x.num / Nat.gcd x.num x.den = a := Nat.div_eq_of_eq_mul_right hg ha
  have h2 : x.den / Nat.gcd x.num x.den = b := Nat.div_eq_of_eq_mul_right hg hb
  rw [h1, h2]
  have e1 : a * x.den = a * (Nat.gcd x.num x.den * b) := by rw [← hb]
  have e2 : x.num * b = Nat.gcd x.num x.den * a * b := by rw [← ha]
  rw [e1, e2]
  ring

theorem roundDouble_den_pos (x : Frac) (hden : 0 < x.den) : 0 < (roundDouble x).den := by
  rcases Nat.eq_zero_or_pos x.num with h | h
  · rw [roundDouble_zero x h]
    decide
  · obtain ⟨n, d, p, m, _, _, _, hr, _⟩ := roundDouble_spec x h hden
    rw [hr]
    positivity

/-- Rounding does not pass a binary64 integer: if `x ≤ L` and `L` is a binary64 value,
then `roundDouble x ≤ L`. -/
theorem roundDouble_le_of_isDouble (x : Frac) (L : ℕ) (hden : 0 < x.den)
    (hle : x.num ≤ L * x.den) (hL : IsDouble L) :
    (roundDouble x).num ≤ L * (roundDouble x).den := by
  rcases Nat.eq_zero_or_pos x.num with h0 | hpos
  · rw [roundDouble_zero x h0]
    simp
  obtain ⟨n, d, p, m, hn, hd, hnd, hr, hlo, hhi, hpm⟩ := roundDouble_spec x hpos hden
  have hnle : n ≤ L * d := by
    have : n * x.den ≤ L * d * x.den := by
      rw [hnd]
      calc x.num * d ≤ L * x.den * d := Nat.mul_le_mul_right d hle
        _ = L * d * x.den := by ring
    exact Nat.le_of_mul_le_mul_right this hden
  have hLpos : 0 < L := by
    rcases Nat.eq_zero_or_pos L with h | h
    · rw [h] at hnle
      omega
    · exact h
  rw [hr]
  simp only []
  rcases Nat.eq_zero_or_pos m with hm0 | hmpos
  · -- the grid contains the integers
    subst hm0
    simp only [pow_zero, Nat.mul_one]
    apply rne_le _ _ _ hd
    calc n * 2 ^ p ≤ L * d * 2 ^ p := Nat.mul_le_mul_right _ hnle
      _ = L * 2 ^ p * d := by ring
  · -- the grid is coarser than the integers: `L` lies on it
    have hp0 : p = 0 := by omega
    subst hp0
    simp only [pow_zero, Nat.mul_one] at hlo hhi ⊢
    -- `L` is at least `2 ^ (52 + m)`
    have hLbig : 2 ^ 52 * 2 ^ m ≤ L := by
      have : 2 ^ 52 * (d * 2 ^ m) ≤ L * d := Nat.le_trans hlo hnle
      have h' : 2 ^ 52 * 2 ^ m * d ≤ L * d := by
        calc 2 ^ 52 * 2 ^ m * d = 2 ^ 52 * (d * 2 ^ m) := by ring
          _ ≤ L * d := this
      exact Nat.le_of_mul_le_mul_right h' hd
    -- the significand of `L`
    obtain ⟨nL, dL, pL, mL, hnL, hdL, hndL, hrL, hloL, hhiL, hpmL⟩ :=
      roundDouble_spec ⟨L, 1⟩ hLpos Nat.one_pos
    simp only [Nat.mul_one] at hndL
    have hdvd : 2 ^ m ∣ L := by
      unfold IsDouble at hL
      rw [hrL] at hL
      simp only [Frac.floor] at hL
      -- `nL = L * dL`
      have hmL : m ≤ mL ∧ pL = 0 := by
        have h1 : 2 ^ 52 * 2 ^ m * dL * 2 ^ pL < 2 ^ 53 * (dL * 2 ^ mL) := by
          calc 2 ^ 52 * 2 ^ m * dL * 2 ^ pL ≤ L * dL * 2 ^ pL :=
                Nat.mul_le_mul_right _ (Nat.mul_le_mul_right _ hLbig)
            _ = nL * 2 ^ pL := by rw [hndL]
            _ < 2 ^ 53 * (dL * 2 ^ mL) := hhiL
        have h2 : 2 ^ m * 2 ^ pL < 2 * 2 ^ mL := by
          have h3 : (2 ^ m * 2 ^ pL) * (2 ^ 52 * dL) < (2 * 2 ^ mL) * (2 ^ 52 * dL) := by
            calc (2 ^ m * 2 ^ pL) * (2 ^ 52 * dL) = 2 ^ 52 * 2 ^ m * dL * 2 ^ pL := by ring
              _ < 2 ^ 53 * (dL * 2 ^ mL) := h1
              _ = (2 * 2 ^ mL) * (2 ^ 52 * dL) := by ring
          exact Nat.lt_of_mul_lt_mul_right h3
        rw [← pow_add, ← pow_succ'] at h2
        have h4 : m + pL < mL + 1 := (Nat.pow_lt_pow_iff_right (by decide)).mp h2
        rcases hpmL with hp | hmz
        · exact ⟨by omega, hp⟩
        · omega
      obtain ⟨hmle, hpL0⟩ := hmL
      subst hpL0
      simp only [pow_zero, Nat.div_one, Nat.mul_one] at hL
      have h5 : 2 ^ mL ∣ L := Dvd.intro_left _ hL
      exact Nat.dvd_trans (Nat.pow_dvd_pow 2 hmle) h5
    obtain ⟨M, hM⟩ := hdvd
    have hrne : rne n (d * 2 ^ m) ≤ M := by
      apply rne_le _ _ _ (by positivity)
      calc n ≤ L * d := hnle
        _ = M * (d * 2 ^ m) := by rw [hM]; ring
    calc rne n (d * 2 ^ m) * 2 ^ m ≤ M * 2 ^ m := Nat.mul_le_mul_right _ hrne
      _ = L := by rw [hM]; ring


theorem shortfallBalance_int (loot a t : ℕ) (ht : 0 < t) :
    shortfallBalance loot (JsNum.int a) (JsNum.int t) = JsNum.int (shortfallShare loot a t) := by
  have ht0 : t ≠ 0 := by omega
  simp [shortfallBalance, shortfallShare, ht0]

/-- The shortfall branch, entry by entry. -/
theorem calculateBalance_shortfall_map (hunt : Hunt) (expensesData : List Expense)
    (hint : ∀ e ∈ expensesData, e.amount ≠ JsNum.nan)
    (hpos : 0 < natTotal expensesData) (hge : hunt.loot ≤ natTotal expensesData) :
    calculateBalance hunt expensesData = expensesData.map fun expense =>
      { expense with
        balance := JsNum.int
          (shortfallShare hunt.loot expense.amount.toNat (natTotal expensesData)) } := by
  rw [calculateBalance_eq_map, totalExpenses_int expensesData hint]
  apply List.map_congr_left
  intro e he
  have ha := int_of_ne_nan e.amount (hint e he)
  have hnlt : ¬ natTotal expensesData < hunt.loot := by omega
  rw [ha]
  simp only [assignedBalance, hnlt, if_false, shortfallBalance_int _ _ _ hpos, JsNum.toNat]

theorem isDouble_one : IsDouble 1 := by decide

theorem isDouble_hundred : IsDouble 100 := by decide

/-- The percentage of an amount that does not exceed the total is at most 1. -/
theorem percentage_le_one (a t : ℕ) (ht : 0 < t) (hle : a ≤ t) :
    (percentage a t).num ≤ (percentage a t).den ∧ 0 < (percentage a t).den := by
  have hr := roundDouble_le_of_isDouble ⟨a, t⟩ 1 ht (by simpa using hle) isDouble_one
  have hrd := roundDouble_den_pos ⟨a, t⟩ ht
  have hy := roundDouble_le_of_isDouble
    ⟨(roundDouble ⟨a, t⟩).num * 100, (roundDouble ⟨a, t⟩).den⟩ 100 hrd
    (by simp only []; omega) isDouble_hundred
  have hyd := roundDouble_den_pos
    ⟨(roundDouble ⟨a, t⟩).num * 100, (roundDouble ⟨a, t⟩).den⟩ hrd
  have hpts : (roundDouble
      ⟨(roundDouble ⟨a, t⟩).num * 100, (roundDouble ⟨a, t⟩).den⟩).floor ≤ 100 := by
    unfold Frac.floor
    exact Nat.div_le_of_le_mul (by omega)
  have hF := roundDouble_le_of_isDouble
    ⟨(roundDouble ⟨(roundDouble ⟨a, t⟩).num * 100, (roundDouble ⟨a, t⟩).den⟩).floor, 100⟩ 1
    (show 0 < 100 by decide) (by simpa using hpts) isDouble_one
  have hFd := roundDouble_den_pos
    ⟨(roundDouble ⟨(roundDouble ⟨a, t⟩).num * 100, (roundDouble ⟨a, t⟩).den⟩).floor, 100⟩
    (show 0 < 100 by decide)
  unfold percentage
  simp only []
  generalize roundDouble
    ⟨(roundDouble ⟨(roundDouble ⟨a, t⟩).num * 100, (roundDouble ⟨a, t⟩).den⟩).floor, 100⟩
    = F at hF hFd ⊢
  have hh : (2 * (F.num * 100) + F.den) / (2 * F.den) ≤ 100 := by
    have hlt : (2 * (F.num * 100) + F.den) / (2 * F.den) < 101 :=
      (Nat.div_lt_iff_lt_mul (by omega)).mpr (by omega)
    omega
  have hP := roundDouble_le_of_isDouble
    ⟨(2 * (F.num * 100) + F.den) / (2 * F.den), 100⟩ 1 (show 0 < 100 by decide)
    (by simpa using hh) isDouble_one
  have hPd := roundDouble_den_pos ⟨(2 * (F.num * 100) + F.den) / (2 * F.den), 100⟩
    (show 0 < 100 by decide)
  exact ⟨by simpa using hP, hPd⟩

theorem shortfallShare_le_loot (loot a t : ℕ) (ht : 0 < t) (hle : a ≤ t)
    (hdouble : IsDouble loot) : shortfallShare loot a t ≤ loot := by
  obtain ⟨hp, hpd⟩ := percentage_le_one a t ht hle
  have h := roundDouble_le_of_isDouble
    ⟨loot * (percentage a t).num, (percentage a t).den⟩ loot hpd
    (Nat.mul_le_mul_left loot hp) hdouble
  unfold shortfallShare Frac.floor
  exact Nat.div_le_of_le_mul (Nat.le_trans h (Nat.le_of_eq (Nat.mul_comm _ _)))

/-! ## The shortfall case: no reporter above the loot -/

/-- C12. No reporter is over-allocated in the shortfall case: with integer amounts of
total `T > 0`, a loot `L ≤ T` that is a binary64 integer, every balance returned by
`calculateBalance` is an integer not above `L`. -/
theorem calculateBalance_shortfall_le_loot (hunt : Hunt) (expensesData : List Expense)
    (hint : ∀ e ∈ expensesData, e.amount ≠ JsNum.nan)
    (hpos : 0 < natTotal expensesData) (hge : hunt.loot ≤ natTotal expensesData)
    (hdouble : IsDouble hunt.loot) :
    ∀ r ∈ calculateBalance hunt expensesData,
      ∃ b, r.balance = JsNum.int b ∧ b ≤ hunt.loot := by
  rw [calculateBalance_shortfall_map hunt expensesData hint hpos hge]
  intro r hr
  obtain ⟨e, he, rfl⟩ := List.mem_map.mp hr
  exact ⟨_, rfl, shortfallShare_le_loot _ _ _ hpos (toNat_le_natTotal expensesData e he) hdouble⟩

theorem calculateBalance_shortfall_le_loot_witness :
    IsDouble 900 ∧
    ∀ r ∈ calculateBalance ⟨"h", 900, []⟩
        [⟨JsNum.int 300, "A", JsNum.int 0⟩, ⟨JsNum.int 300, "B", JsNum.int 0⟩,
         ⟨JsNum.int 300, "C", JsNum.int 0⟩],
      ∃ b, r.balance = JsNum.int b ∧ b ≤ 900 :=
  ⟨by decide, calculateBalance_shortfall_le_loot ⟨"h", 900, []⟩
    [⟨JsNum.int 300, "A", JsNum.int 0⟩, ⟨JsNum.int 300, "B", JsNum.int 0⟩,
     ⟨JsNum.int 300, "C", JsNum.int 0⟩] (by decide) (by decide) (by decide) (by decide)⟩

/-! ## Binary64 rounding: the relative error -/

theorem val_eq_of_cross (x : Frac) (n d : ℕ) (hden : 0 < x.den) (hd : 0 < d)
    (h : n * x.den = x.num * d) : x.val = (n : ℚ) / d := by
  have hdenq : (x.den : ℚ) ≠ 0 := by exact_mod_cast (Nat.pos_iff_ne_zero.mp hden)
  have hdq : (d : ℚ) ≠ 0 := by exact_mod_cast (Nat.pos_iff_ne_zero.mp hd)
  have hq : (n : ℚ) * x.den = x.num * d := by exact_mod_cast h
  unfold Frac.val
  rw [div_eq_div_iff hdenq hdq]
  linarith

/-- Rounding to binary64 changes a value by at most the fraction `2 ^ (-53)` of it. -/
theorem roundDouble_val (x : Frac) (hden : 0 < x.den) :
    (roundDouble x).val ≤ x.val * (1 + 1 / 2 ^ 53) ∧
    x.val * (1 - 1 / 2 ^ 53) ≤ (roundDouble x).val := by
  rcases Nat.eq_zero_or_pos x.num with h0 | hpos
  · rw [roundDouble_zero x h0]
    simp [Frac.val, h0]
  obtain ⟨n, d, p, m, hn, hd, hnd, hr, hlo, hhi, _⟩ := roundDouble_spec x hpos hden
  rw [val_eq_of_cross x n d hden hd hnd, hr]
  obtain ⟨hup, hdown⟩ := rne_near (n * 2 ^ p) (d * 2 ^ m) (by positivity)
  have hdq : (0 : ℚ) < d := by exact_mod_cast hd
  have hp : (0 : ℚ) < (2 : ℚ) ^ p := by positivity
  have hm : (0 : ℚ) < (2 : ℚ) ^ m := by positivity
  have hup' : 2 * ((rne (n * 2 ^ p) (d * 2 ^ m) : ℚ) * (d * 2 ^ m))
      ≤ 2 * ((n : ℚ) * 2 ^ p) + d * 2 ^ m := by exact_mod_cast hup
  have hdown' : 2 * ((n : ℚ) * 2 ^ p)
      ≤ 2 * ((rne (n * 2 ^ p) (d * 2 ^ m) : ℚ) * (d * 2 ^ m)) + d * 2 ^ m := by
    exact_mod_cast hdown
  have hlo' : (2 : ℚ) ^ 52 * (d * 2 ^ m) ≤ (n : ℚ) * 2 ^ p := by exact_mod_cast hlo
  simp only [Frac.val, Nat.cast_mul, Nat.cast_pow, Nat.cast_ofNat]
  generalize (rne (n * 2 ^ p) (d * 2 ^ m) : ℚ) = R at hup' hdown' ⊢
  constructor
  · rw [div_le_iff₀ hp]
    have : (n : ℚ) / d * (1 + 1 / 2 ^ 53) * 2 ^ p
        = ((n : ℚ) * 2 ^ p * (1 + 1 / 2 ^ 53)) / d := by
      field_simp
      ring
    rw [this, le_div_iff₀ hdq]
    nlinarith
  · rw [le_div_iff₀ hp]
    have : (n : ℚ) / d * (1 - 1 / 2 ^ 53) * 2 ^ p
        = ((n : ℚ) * 2 ^ p * (1 - 1 / 2 ^ 53)) / d := by
      field_simp
      ring
    rw [this, div_le_iff₀ hdq]
    nlinarith

theorem floor_val (x : Frac) (hden : 0 < x.den) :
    (x.floor : ℚ) ≤ x.val ∧ x.val < (x.floor : ℚ) + 1 := by
  have hdenq : (0 : ℚ) < x.den := by exact_mod_cast hden
  have h1 : x.floor * x.den ≤ x.num := Nat.div_mul_le_self _ _
  have h2 : x.num < (x.floor + 1) * x.den := by
    have := Nat.lt_succ_self (x.num / x.den)
    exact (Nat.div_lt_iff_lt_mul hden).mp this
  have h1' : (x.floor : ℚ) * x.den ≤ x.num := by exact_mod_cast h1
  have h2' : (x.num : ℚ) < ((x.floor : ℚ) + 1) * x.den := by exact_mod_cast h2
  unfold Frac.val
  constructor
  · rw [le_div_iff₀ hdenq]
    exact h1'
  · rw [div_lt_iff₀ hdenq]
    exact h2'


theorem percentage_eq (a t : ℕ) : percentage a t = percentageOfPoints (points a t) := rfl

/-- `toFixed(2)` and `Number` give back the quotient `points / 100` they are given. -/
theorem percentageOfPoints_table :
    ∀ h, h ≤ 100 → percentageOfPoints h = roundDouble ⟨h, 100⟩ := by
  decide


theorem val_mk (n d : ℕ) : (Frac.mk n d).val = (n : ℚ) / d := rfl

theorem val_mul_left (c : ℕ) (x : Frac) : (Frac.mk (c * x.num) x.den).val = c * x.val := by
  simp [Frac.val, mul_div_assoc]

theorem val_mul_right (x : Frac) (c : ℕ) : (Frac.mk (x.num * c) x.den).val = x.val * c := by
  simp only [Frac.val, Nat.cast_mul]
  ring

/-- Two roundings of a value of size at most `100 * 2 ^ 45` move it by less than 1. -/
theorem two_roundings_small : (100 : ℚ) * 2 ^ 45 * ((1 + 1 / 2 ^ 53) ^ 2 - 1) < 1 := by
  norm_num

/-- Below `2 ^ 45` the computed points never exceed the exact percentage:
`points * total ≤ 100 * amount`. -/
theorem points_mul_total_le (a t : ℕ) (ht : 0 < t) (hbound : t < 2 ^ 45) (hle : a ≤ t) :
    points a t * t ≤ 100 * a := by
  have hr : (roundDouble ⟨a, t⟩).val ≤ (a : ℚ) / t * (1 + 1 / 2 ^ 53) :=
    (roundDouble_val ⟨a, t⟩ ht).1
  have hrd := roundDouble_den_pos ⟨a, t⟩ ht
  have hy : (roundDouble ⟨(roundDouble ⟨a, t⟩).num * 100, (roundDouble ⟨a, t⟩).den⟩).val
      ≤ (roundDouble ⟨a, t⟩).val * 100 * (1 + 1 / 2 ^ 53) := by
    have h := (roundDouble_val
      ⟨(roundDouble ⟨a, t⟩).num * 100, (roundDouble ⟨a, t⟩).den⟩ hrd).1
    rw [val_mul_right (roundDouble ⟨a, t⟩) 100] at h
    exact_mod_cast h
  have hyd := roundDouble_den_pos
    ⟨(roundDouble ⟨a, t⟩).num * 100, (roundDouble ⟨a, t⟩).den⟩ hrd
  have hfl := (floor_val _ hyd).1
  by_contra hcon
  have hgt : 100 * a + 1 ≤ points a t * t := by omega
  have hgt' : (100 : ℚ) * a + 1 ≤ (points a t : ℚ) * t := by exact_mod_cast hgt
  have htq : (0 : ℚ) < t := by exact_mod_cast ht
  have hbq : (t : ℚ) < 2 ^ 45 := by exact_mod_cast hbound
  have haq : (a : ℚ) ≤ t := by exact_mod_cast hle
  have ha0 : (0 : ℚ) ≤ a := by positivity
  change (points a t : ℚ) ≤ _ at hfl
  generalize (roundDouble ⟨(roundDouble ⟨a, t⟩).num * 100, (roundDouble ⟨a, t⟩).den⟩).val
    = y at hy hfl
  generalize (roundDouble ⟨a, t⟩).val = r at hr hy
  generalize (points a t : ℚ) = pts at hgt' hfl
  have hε : (0 : ℚ) < 1 + 1 / 2 ^ 53 := by positivity
  have h1 : y ≤ (a : ℚ) / t * 100 * (1 + 1 / 2 ^ 53) ^ 2 := by
    calc y ≤ r * 100 * (1 + 1 / 2 ^ 53) := hy
      _ ≤ (a : ℚ) / t * (1 + 1 / 2 ^ 53) * 100 * (1 + 1 / 2 ^ 53) := by
          apply mul_le_mul_of_nonneg_right _ (le_of_lt hε)
          apply mul_le_mul_of_nonneg_right hr (by norm_num)
      _ = (a : ℚ) / t * 100 * (1 + 1 / 2 ^ 53) ^ 2 := by ring
  have h2 : pts * t ≤ (a : ℚ) * 100 * (1 + 1 / 2 ^ 53) ^ 2 := by
    calc pts * t ≤ y * t := mul_le_mul_of_nonneg_right hfl (le_of_lt htq)
      _ ≤ (a : ℚ) / t * 100 * (1 + 1 / 2 ^ 53) ^ 2 * t :=
          mul_le_mul_of_nonneg_right h1 (le_of_lt htq)
      _ = (a : ℚ) * 100 * (1 + 1 / 2 ^ 53) ^ 2 := by
          field_simp
          ring
  have h3 : (1 : ℚ) ≤ 100 * a * ((1 + 1 / 2 ^ 53) ^ 2 - 1) := by linarith
  have hpos : (0 : ℚ) ≤ (1 + 1 / 2 ^ 53) ^ 2 - 1 := by norm_num
  have h4 : (100 : ℚ) * a * ((1 + 1 / 2 ^ 53) ^ 2 - 1)
      ≤ 100 * 2 ^ 45 * ((1 + 1 / 2 ^ 53) ^ 2 - 1) := by
    apply mul_le_mul_of_nonneg_right _ hpos
    linarith
  linarith [two_roundings_small]

/-- Below `2 ^ 45` the computed share never exceeds the exact share of the points:
`share * 100 ≤ loot * points`. -/
theorem share_of_points_le (loot h : ℕ) (hh : h ≤ 100) (hbound : loot < 2 ^ 45) :
    (roundDouble ⟨loot * (percentageOfPoints h).num, (percentageOfPoints h).den⟩).floor * 100
      ≤ loot * h := by
  rw [percentageOfPoints_table h hh]
  have hP : (roundDouble ⟨h, 100⟩).val ≤ (h : ℚ) / 100 * (1 + 1 / 2 ^ 53) := by
    have h' := (roundDouble_val ⟨h, 100⟩ (show 0 < 100 by decide)).1
    rw [val_mk h 100] at h'
    exact_mod_cast h'
  have hPd := roundDouble_den_pos ⟨h, 100⟩ (show 0 < 100 by decide)
  have hz : (roundDouble
      ⟨loot * (roundDouble ⟨h, 100⟩).num, (roundDouble ⟨h, 100⟩).den⟩).val
      ≤ loot * (roundDouble ⟨h, 100⟩).val * (1 + 1 / 2 ^ 53) := by
    have h' := (roundDouble_val
      ⟨loot * (roundDouble ⟨h, 100⟩).num, (roundDouble ⟨h, 100⟩).den⟩ hPd).1
    rw [val_mul_left loot (roundDouble ⟨h, 100⟩)] at h'
    exact h'
  have hzd := roundDouble_den_pos
    ⟨loot * (roundDouble ⟨h, 100⟩).num, (roundDouble ⟨h, 100⟩).den⟩ hPd
  have hfl := (floor_val _ hzd).1
  by_contra hcon
  have hgt : loot * h + 1 ≤
      (roundDouble ⟨loot * (roundDouble ⟨h, 100⟩).num, (roundDouble ⟨h, 100⟩).den⟩).floor
        * 100 := by omega
  have hgt' : (loot : ℚ) * h + 1 ≤
      ((roundDouble ⟨loot * (roundDouble ⟨h, 100⟩).num, (roundDouble ⟨h, 100⟩).den⟩).floor : ℚ)
        * 100 := by exact_mod_cast hgt
  have hbq : (loot : ℚ) < 2 ^ 45 := by exact_mod_cast hbound
  have hhq : (h : ℚ) ≤ 100 := by exact_mod_cast hh
  have hl0 : (0 : ℚ) ≤ loot := by positivity
  have hh0 : (0 : ℚ) ≤ h := by positivity
  generalize ((roundDouble
    ⟨loot * (roundDouble ⟨h, 100⟩).num, (roundDouble ⟨h, 100⟩).den⟩).floor : ℚ) = b
    at hgt' hfl
  generalize (roundDouble
    ⟨loot * (roundDouble ⟨h, 100⟩).num, (roundDouble ⟨h, 100⟩).den⟩).val = z at hz hfl
  generalize (roundDouble ⟨h, 100⟩).val = P at hP hz
  have hε : (0 : ℚ) < 1 + 1 / 2 ^ 53 := by positivity
  have h1 : z ≤ (loot : ℚ) * ((h : ℚ) / 100) * (1 + 1 / 2 ^ 53) ^ 2 := by
    calc z ≤ loot * P * (1 + 1 / 2 ^ 53) := hz
      _ ≤ loot * ((h : ℚ) / 100 * (1 + 1 / 2 ^ 53)) * (1 + 1 / 2 ^ 53) := by
          apply mul_le_mul_of_nonneg_right _ (le_of_lt hε)
          exact mul_le_mul_of_nonneg_left hP hl0
      _ = (loot : ℚ) * ((h : ℚ) / 100) * (1 + 1 / 2 ^ 53) ^ 2 := by
          ring
  have h2 : b * 100 ≤ (loot : ℚ) * h * (1 + 1 / 2 ^ 53) ^ 2 := by
    calc b * 100 ≤ z * 100 := mul_le_mul_of_nonneg_right hfl (by norm_num)
      _ ≤ (loot : ℚ) * ((h : ℚ) / 100) * (1 + 1 / 2 ^ 53) ^ 2 * 100 :=
          mul_le_mul_of_nonneg_right h1 (by norm_num)
      _ = (loot : ℚ) * h * (1 + 1 / 2 ^ 53) ^ 2 := by ring
  have h3 : (1 : ℚ) ≤ loot * h * ((1 + 1 / 2 ^ 53) ^ 2 - 1) := by linarith
  have hpos : (0 : ℚ) ≤ (1 + 1 / 2 ^ 53) ^ 2 - 1 := by norm_num
  have h4 : (loot : ℚ) * h * ((1 + 1 / 2 ^ 53) ^ 2 - 1)
      ≤ 100 * 2 ^ 45 * ((1 + 1 / 2 ^ 53) ^ 2 - 1) := by
    apply mul_le_mul_of_nonneg_right _ hpos
    nlinarith
  linarith [two_roundings_small]

/-- Below `2 ^ 45` no entry receives more than its exact proportional share:
`share * total ≤ loot * amount`. -/
theorem shortfallShare_mul_total_le (loot a t : ℕ) (ht : 0 < t) (hbound : t < 2 ^ 45)
    (hle : a ≤ t) (hloot : loot ≤ t) : shortfallShare loot a t * t ≤ loot * a := by
  have hpts := points_mul_total_le a t ht hbound hle
  have hh : points a t ≤ 100 := by
    by_contra hcon
    have : 101 * t ≤ points a t * t := Nat.mul_le_mul_right t (by omega)
    omega
  have hshare := share_of_points_le loot (points a t) hh (by omega)
  have heq : shortfallShare loot a t
      = (roundDouble ⟨loot * (percentageOfPoints (points a t)).num,
          (percentageOfPoints (points a t)).den⟩).floor := rfl
  rw [← heq] at hshare
  have h1 : shortfallShare loot a t * 100 * t ≤ loot * points a t * t :=
    Nat.mul_le_mul_right t hshare
  have h2 : loot * (points a t * t) ≤ loot * (100 * a) := Nat.mul_le_mul_left loot hpts
  have h3 : shortfallShare loot a t * t * 100 ≤ loot * a * 100 := by
    calc shortfallShare loot a t * t * 100 = shortfallShare loot a t * 100 * t := by ring
      _ ≤ loot * points a t * t := h1
      _ = loot * (points a t * t) := by ring
      _ ≤ loot * (100 * a) := h2
      _ = loot * a * 100 := by ring
  exact Nat.le_of_mul_le_mul_right h3 (by decide)


theorem sum_mul_le_of_forall (expensesData : List Expense) (f g : Expense → ℕ) (t loot : ℕ)
    (h : ∀ e ∈ expensesData, f e * t ≤ loot * g e) :
    (expensesData.map f).sum * t ≤ loot * (expensesData.map g).sum := by
  induction expensesData with
  | nil => simp
  | cons e es ih =>
    have he := h e (List.mem_cons_self _ _)
    have hes := ih (fun x hx => h x (List.mem_cons_of_mem _ hx))
    simp only [List.map_cons, List.sum_cons, Nat.add_mul, Nat.mul_add]
    omega

/-! ## The sum of the balances against the loot -/

set_option maxRecDepth 8192 in
/-- C18 (as stated, refuted). Loot 6999999999999999 and five reports of 1400000000000000
(total 7000000000000000, shortfall case): every reporter receives 1400000000000000
and the balances sum to 7000000000000000, one more than the loot. -/
theorem calculateBalance_sum_above_loot :
    calculateBalance ⟨"h", 6999999999999999, []⟩
        [⟨JsNum.int 1400000000000000, "A", JsNum.int 0⟩,
         ⟨JsNum.int 1400000000000000, "B", JsNum.int 0⟩,
         ⟨JsNum.int 1400000000000000, "C", JsNum.int 0⟩,
         ⟨JsNum.int 1400000000000000, "D", JsNum.int 0⟩,
         ⟨JsNum.int 1400000000000000, "E", JsNum.int 0⟩]
      = [⟨JsNum.int 1400000000000000, "A", JsNum.int 1400000000000000⟩,
         ⟨JsNum.int 1400000000000000, "B", JsNum.int 1400000000000000⟩,
         ⟨JsNum.int 1400000000000000, "C", JsNum.int 1400000000000000⟩,
         ⟨JsNum.int 1400000000000000, "D", JsNum.int 1400000000000000⟩,
         ⟨JsNum.int 1400000000000000, "E", JsNum.int 1400000000000000⟩] ∧
    IsDouble 6999999999999999 ∧ IsDouble 1400000000000000 ∧
    6999999999999999 < balanceTotal (calculateBalance ⟨"h", 6999999999999999, []⟩
        [⟨JsNum.int 1400000000000000, "A", JsNum.int 0⟩,
         ⟨JsNum.int 1400000000000000, "B", JsNum.int 0⟩,
         ⟨JsNum.int 1400000000000000, "C", JsNum.int 0⟩,
         ⟨JsNum.int 1400000000000000, "D", JsNum.int 0⟩,
         ⟨JsNum.int 1400000000000000, "E", JsNum.int 0⟩]) := by
  decide

/-- C18 (amended). The allocator never hands out more than the loot as long as the
loot is below `2 ^ 53` and the total of the expenses is below `2 ^ 45`: with integer
amounts, loot and total not both zero, all balances are integers and their sum is at
most the loot, in the profit case and in the shortfall case alike.  The bound on the
loot is where the integer arithmetic of the profit branch is exact in binary64; the
bound on the total keeps the roundings of the shortfall branch below one hundredth. -/
theorem calculateBalance_sum_le_loot (hunt : Hunt) (expensesData : List Expense)
    (hint : ∀ e ∈ expensesData, e.amount ≠ JsNum.nan)
    (hnz : ¬ (hunt.loot = 0 ∧ natTotal expensesData = 0))
    (hbound : natTotal expensesData < 2 ^ 45) (hloot : hunt.loot < 2 ^ 53) :
    (∀ r ∈ calculateBalance hunt expensesData, r.balance ≠ JsNum.nan) ∧
    balanceTotal (calculateBalance hunt expensesData) ≤ hunt.loot := by
  by_cases hlt : natTotal expensesData < hunt.loot
  · -- profit case
    rw [calculateBalance_profit_map hunt expensesData hint hlt]
    refine ⟨?_, ?_⟩
    · intro r hr
      obtain ⟨e, _, rfl⟩ := List.mem_map.mp hr
      simp
    · rw [balanceTotal_map_int, sum_map_add_const]
      have := Nat.mul_div_le (hunt.loot - natTotal expensesData) expensesData.length
      omega
  · -- shortfall case
    have hge : hunt.loot ≤ natTotal expensesData := by omega
    have hpos : 0 < natTotal expensesData := by omega
    rw [calculateBalance_shortfall_map hunt expensesData hint hpos hge]
    refine ⟨?_, ?_⟩
    · intro r hr
      obtain ⟨e, _, rfl⟩ := List.mem_map.mp hr
      simp
    · rw [balanceTotal_map_int]
      have hsum := sum_mul_le_of_forall expensesData
        (fun e => shortfallShare hunt.loot e.amount.toNat (natTotal expensesData))
        (fun e => e.amount.toNat) (natTotal expensesData) hunt.loot
        (fun e he => shortfallShare_mul_total_le _ _ _ hpos hbound
          (toNat_le_natTotal expensesData e he) hge)
      exact Nat.le_of_mul_le_mul_right hsum hpos

theorem calculateBalance_sum_le_loot_witness :
    (∀ r ∈ calculateBalance ⟨"h", 900, []⟩
        [⟨JsNum.int 300, "A", JsNum.int 0⟩, ⟨JsNum.int 300, "B", JsNum.int 0⟩,
         ⟨JsNum.int 300, "C", JsNum.int 0⟩], r.balance ≠ JsNum.nan) ∧
    balanceTotal (calculateBalance ⟨"h", 900, []⟩
        [⟨JsNum.int 300, "A", JsNum.int 0⟩, ⟨JsNum.int 300, "B", JsNum.int 0⟩,
         ⟨JsNum.int 300, "C", JsNum.int 0⟩]) ≤ 900 :=
  calculateBalance_sum_le_loot ⟨"h", 900, []⟩
    [⟨JsNum.int 300, "A", JsNum.int 0⟩, ⟨JsNum.int 300, "B", JsNum.int 0⟩,
     ⟨JsNum.int 300, "C", JsNum.int 0⟩] (by decide) (by decide) (by decide) (by decide)

/-! ## The shortfall case: how much is lost -/

/-- `roundDouble` depends on the value of the fraction only. -/
theorem roundDouble_congr (x x' : Frac) (hden : 0 < x.den) (hden' : 0 < x'.den)
    (h : x.num * x'.den = x'.num * x.den) : roundDouble x = roundDouble x' := by
  have hg : 0 < Nat.gcd x.num x.den := Nat.gcd_pos_of_pos_right _ hden
  have hg' : 0 < Nat.gcd x'.num x'.den := Nat.gcd_pos_of_pos_right _ hden'
  have hd : 0 < x.den / Nat.gcd x.num x.den :=
    Nat.div_pos (Nat.le_of_dvd hden (Nat.gcd_dvd_right _ _)) hg
  have hd' : 0 < x'.den / Nat.gcd x'.num x'.den :=
    Nat.div_pos (Nat.le_of_dvd hden' (Nat.gcd_dvd_right _ _)) hg'
  have hcop := Nat.coprime_div_gcd_div_gcd hg
  have hcop' := Nat.coprime_div_gcd_div_gcd hg'
  obtain ⟨a, ha⟩ := Nat.gcd_dvd_left x.num x.den
  obtain ⟨b, hb⟩ := Nat.gcd_dvd_right x.num x.den
  obtain ⟨a', ha'⟩ := Nat.gcd_dvd_left x'.num x'.den
  obtain ⟨b', hb'⟩ := Nat.gcd_dvd_right x'.num x'.den
  have h1 : x.num / Nat.gcd x.num x.den = a := Nat.div_eq_of_eq_mul_right hg ha
  have h2 : x.den / Nat.gcd x.num x.den = b := Nat.div_eq_of_eq_mul_right hg hb
  have h1' : x'.num / Nat.gcd x'.num x'.den = a' := Nat.div_eq_of_eq_mul_right hg' ha'
  have h2' : x'.den / Nat.gcd x'.num x'.den = b' := Nat.div_eq_of_eq_mul_right hg' hb'
  rw [h1, h2] at hcop
  rw [h1', h2'] at hcop'
  rw [h2] at hd
  rw [h2'] at hd'
  -- the reduced fractions are equal as rationals
  have hcross : a * b' = a' * b := by
    have e : (Nat.gcd x.num x.den * a) * (Nat.gcd x'.num x'.den * b')
        = (Nat.gcd x'.num x'.den * a') * (Nat.gcd x.num x.den * b) := by
      rw [← ha, ← hb', ← ha', ← hb]
      exact h
    have e' : (Nat.gcd x.num x.den * Nat.gcd x'.num x'.den) * (a * b')
        = (Nat.gcd x.num x.den * Nat.gcd x'.num x'.den) * (a' * b) := by
      calc (Nat.gcd x.num x.den * Nat.gcd x'.num x'.den) * (a * b')
          = (Nat.gcd x.num x.den * a) * (Nat.gcd x'.num x'.den * b') := by ring
        _ = (Nat.gcd x'.num x'.den * a') * (Nat.gcd x.num x.den * b) := e
        _ = (Nat.gcd x.num x.den * Nat.gcd x'.num x'.den) * (a' * b) := by ring
    exact Nat.eq_of_mul_eq_mul_left (Nat.mul_pos hg hg') e'
  have hq : ((a : ℤ) : ℚ) / ((b : ℤ) : ℚ) = ((a' : ℤ) : ℚ) / ((b' : ℤ) : ℚ) := by
    have hbq : ((b : ℤ) : ℚ) ≠ 0 := by
      have : (b : ℚ) ≠ 0 := by exact_mod_cast (Nat.pos_iff_ne_zero.mp hd)
      simpa using this
    have hbq' : ((b' : ℤ) : ℚ) ≠ 0 := by
      have : (b' : ℚ) ≠ 0 := by exact_mod_cast (Nat.pos_iff_ne_zero.mp hd')
      simpa using this
    rw [div_eq_div_iff hbq hbq']
    have : ((a * b' : ℕ) : ℚ) = ((a' * b : ℕ) : ℚ) := by rw [hcross]
    push_cast at this ⊢
    exact this
  obtain ⟨e1, e2⟩ := Rat.div_int_inj (by exact_mod_cast hd) (by exact_mod_cast hd')
    (by simpa using hcop) (by simpa using hcop') hq
  have e1' : a = a' := by exact_mod_cast e1
  have e2' : b = b' := by exact_mod_cast e2
  unfold roundDouble
  simp only []
  rw [h1, h2, h1', h2', e1', e2']

set_option maxRecDepth 8192 in
/-- The whole points computed for an exact percentage `K / 100` are `K`, except for
29, 57 and 58, where binary64 gives one point less. -/
theorem points_table :
    ∀ K, K ≤ 100 → points K 100 + 1 = K → K = 29 ∨ K = 57 ∨ K = 58 := by
  decide

theorem two_roundings_down_small : (100 : ℚ) * 2 ^ 45 * (1 - (1 - 1 / 2 ^ 53) ^ 2) < 1 := by
  norm_num

/-- Below `2 ^ 45` the computed points are less than one point under the exact
percentage: `100 * amount ≤ (points + 1) * total`. -/
theorem points_succ_mul_total_ge (a t : ℕ) (ht : 0 < t) (hbound : t < 2 ^ 45)
    (hle : a ≤ t) : 100 * a ≤ (points a t + 1) * t := by
  have hr : (a : ℚ) / t * (1 - 1 / 2 ^ 53) ≤ (roundDouble ⟨a, t⟩).val :=
    (roundDouble_val ⟨a, t⟩ ht).2
  have hrd := roundDouble_den_pos ⟨a, t⟩ ht
  have hy : (roundDouble ⟨a, t⟩).val * 100 * (1 - 1 / 2 ^ 53)
      ≤ (roundDouble ⟨(roundDouble ⟨a, t⟩).num * 100, (roundDouble ⟨a, t⟩).den⟩).val := by
    have h := (roundDouble_val
      ⟨(roundDouble ⟨a, t⟩).num * 100, (roundDouble ⟨a, t⟩).den⟩ hrd).2
    rw [val_mul_right (roundDouble ⟨a, t⟩) 100] at h
    exact_mod_cast h
  have hyd := roundDouble_den_pos
    ⟨(roundDouble ⟨a, t⟩).num * 100, (roundDouble ⟨a, t⟩).den⟩ hrd
  have hfl := (floor_val _ hyd).2
  by_contra hcon
  have hlt : (points a t + 1) * t + 1 ≤ 100 * a := by omega
  have hlt' : ((points a t : ℚ) + 1) * t + 1 ≤ 100 * a := by exact_mod_cast hlt
  have htq : (0 : ℚ) < t := by exact_mod_cast ht
  have hbq : (t : ℚ) < 2 ^ 45 := by exact_mod_cast hbound
  have haq : (a : ℚ) ≤ t := by exact_mod_cast hle
  have ha0 : (0 : ℚ) ≤ a := by positivity
  change _ < (points a t : ℚ) + 1 at hfl
  generalize (roundDouble ⟨(roundDouble ⟨a, t⟩).num * 100, (roundDouble ⟨a, t⟩).den⟩).val
    = y at hy hfl
  generalize (roundDouble ⟨a, t⟩).val = r at hr hy
  generalize (points a t : ℚ) = pts at hlt' hfl
  have hε : (0 : ℚ) < 1 - 1 / 2 ^ 53 := by norm_num
  have h1 : (a : ℚ) / t * 100 * (1 - 1 / 2 ^ 53) ^ 2 ≤ y := by
    calc (a : ℚ) / t * 100 * (1 - 1 / 2 ^ 53) ^ 2
        = (a : ℚ) / t * (1 - 1 / 2 ^ 53) * 100 * (1 - 1 / 2 ^ 53) := by ring
      _ ≤ r * 100 * (1 - 1 / 2 ^ 53) := by
          apply mul_le_mul_of_nonneg_right _ (le_of_lt hε)
          apply mul_le_mul_of_nonneg_right hr (by norm_num)
      _ ≤ y := hy
  have h2 : (a : ℚ) * 100 * (1 - 1 / 2 ^ 53) ^ 2 < (pts + 1) * t := by
    calc (a : ℚ) * 100 * (1 - 1 / 2 ^ 53) ^ 2
        = (a : ℚ) / t * 100 * (1 - 1 / 2 ^ 53) ^ 2 * t := by
          field_simp
          ring
      _ ≤ y * t := mul_le_mul_of_nonneg_right h1 (le_of_lt htq)
      _ < (pts + 1) * t := mul_lt_mul_of_pos_right hfl htq
  have h3 : (1 : ℚ) < 100 * a * (1 - (1 - 1 / 2 ^ 53) ^ 2) := by linarith
  have hpos : (0 : ℚ) ≤ 1 - (1 - 1 / 2 ^ 53) ^ 2 := by norm_num
  have h4 : (100 : ℚ) * a * (1 - (1 - 1 / 2 ^ 53) ^ 2)
      ≤ 100 * 2 ^ 45 * (1 - (1 - 1 / 2 ^ 53) ^ 2) := by
    apply mul_le_mul_of_nonneg_right _ hpos
    linarith
  linarith [two_roundings_down_small]

/-- Below `2 ^ 45` the computed points fall short of the exact percentage by a whole
point only for the exact percentages 29, 57 and 58. -/
theorem points_slip (a t : ℕ) (ht : 0 < t) (hle : a ≤ t)
    (heq : (points a t + 1) * t = 100 * a) :
    points a t + 1 = 29 ∨ points a t + 1 = 57 ∨ points a t + 1 = 58 := by
  have hK : points a t + 1 ≤ 100 := by
    by_contra hcon
    have : 101 * t ≤ (points a t + 1) * t := Nat.mul_le_mul_right t (by omega)
    omega
  have hcongr : roundDouble ⟨a, t⟩ = roundDouble ⟨points a t + 1, 100⟩ :=
    roundDouble_congr ⟨a, t⟩ ⟨points a t + 1, 100⟩ ht (show 0 < 100 by decide)
      (by simp only []; omega)
  have hpts : points (points a t + 1) 100 = points a t := by
    conv_rhs => unfold points
    rw [hcongr]
    rfl
  exact points_table (points a t + 1) hK (by rw [hpts])


/-- Below `2 ^ 45` the computed share is less than one unit under the exact share of
the points: `loot * points ≤ (share + 1) * 100`. -/
theorem share_of_points_succ_ge (loot h : ℕ) (hh : h ≤ 100) (hbound : loot < 2 ^ 45) :
    loot * h ≤
      ((roundDouble ⟨loot * (percentageOfPoints h).num, (percentageOfPoints h).den⟩).floor
        + 1) * 100 := by
  rw [percentageOfPoints_table h hh]
  have hP : (h : ℚ) / 100 * (1 - 1 / 2 ^ 53) ≤ (roundDouble ⟨h, 100⟩).val := by
    have h' := (roundDouble_val ⟨h, 100⟩ (show 0 < 100 by decide)).2
    rw [val_mk h 100] at h'
    exact_mod_cast h'
  have hPd := roundDouble_den_pos ⟨h, 100⟩ (show 0 < 100 by decide)
  have hz : loot * (roundDouble ⟨h, 100⟩).val * (1 - 1 / 2 ^ 53)
      ≤ (roundDouble
        ⟨loot * (roundDouble ⟨h, 100⟩).num, (roundDouble ⟨h, 100⟩).den⟩).val := by
    have h' := (roundDouble_val
      ⟨loot * (roundDouble ⟨h, 100⟩).num, (roundDouble ⟨h, 100⟩).den⟩ hPd).2
    rw [val_mul_left loot (roundDouble ⟨h, 100⟩)] at h'
    exact h'
  have hzd := roundDouble_den_pos
    ⟨loot * (roundDouble ⟨h, 100⟩).num, (roundDouble ⟨h, 100⟩).den⟩ hPd
  have hfl := (floor_val _ hzd).2
  by_contra hcon
  have hlt : ((roundDouble
      ⟨loot * (roundDouble ⟨h, 100⟩).num, (roundDouble ⟨h, 100⟩).den⟩).floor + 1) * 100 + 1
      ≤ loot * h := by omega
  have hlt' : (((roundDouble
      ⟨loot * (roundDouble ⟨h, 100⟩).num, (roundDouble ⟨h, 100⟩).den⟩).floor : ℚ) + 1) * 100
      + 1 ≤ loot * h := by exact_mod_cast hlt
  have hbq : (loot : ℚ) < 2 ^ 45 := by exact_mod_cast hbound
  have hhq : (h : ℚ) ≤ 100 := by exact_mod_cast hh
  have hl0 : (0 : ℚ) ≤ loot := by positivity
  have hh0 : (0 : ℚ) ≤ h := by positivity
  generalize ((roundDouble
    ⟨loot * (roundDouble ⟨h, 100⟩).num, (roundDouble ⟨h, 100⟩).den⟩).floor : ℚ) = b
    at hlt' hfl
  generalize (roundDouble
    ⟨loot * (roundDouble ⟨h, 100⟩).num, (roundDouble ⟨h, 100⟩).den⟩).val = z at hz hfl
  generalize (roundDouble ⟨h, 100⟩).val = P at hP hz
  have hε : (0 : ℚ) < 1 - 1 / 2 ^ 53 := by norm_num
  have h1 : (loot : ℚ) * ((h : ℚ) / 100) * (1 - 1 / 2 ^ 53) ^ 2 ≤ z := by
    calc (loot : ℚ) * ((h : ℚ) / 100) * (1 - 1 / 2 ^ 53) ^ 2
        = loot * ((h : ℚ) / 100 * (1 - 1 / 2 ^ 53)) * (1 - 1 / 2 ^ 53) := by ring
      _ ≤ loot * P * (1 - 1 / 2 ^ 53) := by
          apply mul_le_mul_of_nonneg_right _ (le_of_lt hε)
          exact mul_le_mul_of_nonneg_left hP hl0
      _ ≤ z := hz
  have h2 : (loot : ℚ) * h * (1 - 1 / 2 ^ 53) ^ 2 < (b + 1) * 100 := by
    calc (loot : ℚ) * h * (1 - 1 / 2 ^ 53) ^ 2
        = (loot : ℚ) * ((h : ℚ) / 100) * (1 - 1 / 2 ^ 53) ^ 2 * 100 := by ring
      _ ≤ z * 100 := mul_le_mul_of_nonneg_right h1 (by norm_num)
      _ < (b + 1) * 100 := mul_lt_mul_of_pos_right hfl (by norm_num)
  have h3 : (1 : ℚ) < loot * h * (1 - (1 - 1 / 2 ^ 53) ^ 2) := by linarith
  have hpos : (0 : ℚ) ≤ 1 - (1 - 1 / 2 ^ 53) ^ 2 := by norm_num
  have h4 : (loot : ℚ) * h * (1 - (1 - 1 / 2 ^ 53) ^ 2)
      ≤ 100 * 2 ^ 45 * (1 - (1 - 1 / 2 ^ 53) ^ 2) := by
    apply mul_le_mul_of_nonneg_right _ hpos
    nlinarith
  linarith [two_roundings_down_small]

/-- Below `2 ^ 45` an entry loses at most one percentage point of the loot plus one
unit against its exact proportional share. -/
theorem shortfallShare_loss_le (loot a t : ℕ) (ht : 0 < t) (hbound : t < 2 ^ 45)
    (hle : a ≤ t) (hloot : loot ≤ t) :
    100 * loot * a ≤ (100 * shortfallShare loot a t + 100 + loot) * t := by
  have hpts := points_succ_mul_total_ge a t ht hbound hle
  have hup := points_mul_total_le a t ht hbound hle
  have hh : points a t ≤ 100 := by
    by_contra hcon
    have : 101 * t ≤ points a t * t := Nat.mul_le_mul_right t (by omega)
    omega
  have hshare := share_of_points_succ_ge loot (points a t) hh (by omega)
  have heq : shortfallShare loot a t
      = (roundDouble ⟨loot * (percentageOfPoints (points a t)).num,
          (percentageOfPoints (points a t)).den⟩).floor := rfl
  rw [← heq] at hshare
  have h1 : loot * (100 * a) ≤ loot * ((points a t + 1) * t) :=
    Nat.mul_le_mul_left loot hpts
  have h2 : loot * points a t * t ≤ (shortfallShare loot a t + 1) * 100 * t :=
    Nat.mul_le_mul_right t hshare
  calc 100 * loot * a = loot * (100 * a) := by ring
    _ ≤ loot * ((points a t + 1) * t) := h1
    _ = loot * points a t * t + loot * t := by ring
    _ ≤ (shortfallShare loot a t + 1) * 100 * t + loot * t := Nat.add_le_add_right h2 _
    _ = (100 * shortfallShare loot a t + 100 + loot) * t := by ring

/-- The loss is strictly smaller unless the exact percentage is one of 29, 57, 58. -/
theorem shortfallShare_loss_lt (loot a t : ℕ) (ht : 0 < t) (hbound : t < 2 ^ 45)
    (hle : a ≤ t) (hloot : loot ≤ t) (hlpos : 0 < loot)
    (hne : (points a t + 1) * t ≠ 100 * a) :
    100 * loot * a < (100 * shortfallShare loot a t + 100 + loot) * t := by
  have hpts := points_succ_mul_total_ge a t ht hbound hle
  have hpts' : 100 * a < (points a t + 1) * t := by omega
  have hup := points_mul_total_le a t ht hbound hle
  have hh : points a t ≤ 100 := by
    by_contra hcon
    have : 101 * t ≤ points a t * t := Nat.mul_le_mul_right t (by omega)
    omega
  have hshare := share_of_points_succ_ge loot (points a t) hh (by omega)
  have heq : shortfallShare loot a t
      = (roundDouble ⟨loot * (percentageOfPoints (points a t)).num,
          (percentageOfPoints (points a t)).den⟩).floor := rfl
  rw [← heq] at hshare
  have h1 : loot * (100 * a) < loot * ((points a t + 1) * t) :=
    Nat.mul_lt_mul_of_pos_left hpts' hlpos
  have h2 : loot * points a t * t ≤ (shortfallShare loot a t + 1) * 100 * t :=
    Nat.mul_le_mul_right t hshare
  calc 100 * loot * a = loot * (100 * a) := by ring
    _ < loot * ((points a t + 1) * t) := h1
    _ = loot * points a t * t + loot * t := by ring
    _ ≤ (shortfallShare loot a t + 1) * 100 * t + loot * t := Nat.add_le_add_right h2 _
    _ = (100 * shortfallShare loot a t + 100 + loot) * t := by ring


theorem slip_sum_ne (ks : List ℕ) (h : ∀ k ∈ ks, k = 29 ∨ k = 57 ∨ k = 58) :
    ks.sum ≠ 100 := by
  have hform : ∃ x y z : ℕ, ks.sum = 29 * x + 57 * y + 58 * z := by
    induction ks with
    | nil => exact ⟨0, 0, 0, rfl⟩
    | cons k ks ih =>
      obtain ⟨x, y, z, hs⟩ := ih (fun j hj => h j (List.mem_cons_of_mem _ hj))
      rw [List.sum_cons, hs]
      rcases h k (List.mem_cons_self _ _) with hk | hk | hk
      · exact ⟨x + 1, y, z, by omega⟩
      · exact ⟨x, y + 1, z, by omega⟩
      · exact ⟨x, y, z + 1, by omega⟩
  obtain ⟨x, y, z, hs⟩ := hform
  omega

theorem sum_map_affine (expensesData : List Expense) (share : Expense → ℕ) (c t : ℕ) :
    (expensesData.map fun e => (100 * share e + c) * t).sum
      = (100 * (expensesData.map share).sum + expensesData.length * c) * t := by
  induction expensesData with
  | nil => simp
  | cons e es ih =>
    simp only [List.map_cons, List.sum_cons, List.length_cons, ih]
    ring

theorem sum_map_scaled (expensesData : List Expense) (c : ℕ) :
    (expensesData.map fun e => c * e.amount.toNat).sum = c * natTotal expensesData := by
  induction expensesData with
  | nil => simp [natTotal]
  | cons e es ih =>
    simp only [List.map_cons, List.sum_cons, ih, natTotal]
    ring

theorem sum_map_points (expensesData : List Expense) (t : ℕ)
    (h : ∀ e ∈ expensesData, (points e.amount.toNat t + 1) * t = 100 * e.amount.toNat) :
    (expensesData.map fun e => points e.amount.toNat t + 1).sum * t
      = 100 * natTotal expensesData := by
  induction expensesData with
  | nil => simp [natTotal]
  | cons e es ih =>
    have he := h e (List.mem_cons_self _ _)
    have hes := ih (fun x hx => h x (List.mem_cons_of_mem _ hx))
    have hnt : natTotal (e :: es) = e.amount.toNat + natTotal es := by simp [natTotal]
    simp only [List.map_cons, List.sum_cons]
    rw [hnt, Nat.add_mul, he, hes, Nat.mul_add]

/-- Drift in the shortfall case below `2 ^ 45`: with integer amounts of total
`0 < T < 2 ^ 45`, a loot `L ≤ T` and `n` entries, all balances are integers and their
sum `S` obeys `100 * L < 100 * S + n * (L + 100)`, that is `L - S < n * (L / 100 + 1)`
with the division taken exactly. -/
theorem calculateBalance_shortfall_drift (hunt : Hunt) (expensesData : List Expense)
    (hint : ∀ e ∈ expensesData, e.amount ≠ JsNum.nan)
    (hpos : 0 < natTotal expensesData) (hge : hunt.loot ≤ natTotal expensesData)
    (hbound : natTotal expensesData < 2 ^ 45) :
    (∀ r ∈ calculateBalance hunt expensesData, r.balance ≠ JsNum.nan) ∧
    100 * hunt.loot < 100 * balanceTotal (calculateBalance hunt expensesData)
      + expensesData.length * (hunt.loot + 100) := by
  rw [calculateBalance_shortfall_map hunt expensesData hint hpos hge]
  refine ⟨?_, ?_⟩
  · intro r hr
    obtain ⟨e, _, rfl⟩ := List.mem_map.mp hr
    simp
  rw [balanceTotal_map_int]
  have hne : expensesData ≠ [] := by
    intro hnil
    rw [hnil] at hpos
    simp [natTotal] at hpos
  have hlen : 0 < expensesData.length := List.length_pos.mpr hne
  rcases Nat.eq_zero_or_pos hunt.loot with hzero | hlpos
  · rw [hzero]
    have : 0 < expensesData.length * (0 + 100) := Nat.mul_pos hlen (by decide)
    omega
  have hle : ∀ e ∈ expensesData,
      100 * hunt.loot * e.amount.toNat
        ≤ (100 * shortfallShare hunt.loot e.amount.toNat (natTotal expensesData)
            + (100 + hunt.loot)) * natTotal expensesData := by
    intro e he
    have := shortfallShare_loss_le hunt.loot e.amount.toNat (natTotal expensesData) hpos
      hbound (toNat_le_natTotal expensesData e he) hge
    simpa [Nat.add_assoc] using this
  have hstrict : ∃ e ∈ expensesData,
      100 * hunt.loot * e.amount.toNat
        < (100 * shortfallShare hunt.loot e.amount.toNat (natTotal expensesData)
            + (100 + hunt.loot)) * natTotal expensesData := by
    by_contra hnone
    have hall : ∀ e ∈ expensesData,
        (points e.amount.toNat (natTotal expensesData) + 1) * natTotal expensesData
          = 100 * e.amount.toNat := by
      intro e he
      by_contra hneq
      apply hnone
      refine ⟨e, he, ?_⟩
      have := shortfallShare_loss_lt hunt.loot e.amount.toNat (natTotal expensesData) hpos
        hbound (toNat_le_natTotal expensesData e he) hge hlpos hneq
      simpa [Nat.add_assoc] using this
    have hsum := sum_map_points expensesData (natTotal expensesData) hall
    have hsum' : (expensesData.map
        fun e => points e.amount.toNat (natTotal expensesData) + 1).sum = 100 := by
      have h' : (expensesData.map
          fun e => points e.amount.toNat (natTotal expensesData) + 1).sum
            * natTotal expensesData = 100 * natTotal expensesData := hsum
      exact Nat.eq_of_mul_eq_mul_right hpos h'
    refine slip_sum_ne _ ?_ hsum'
    intro k hk
    obtain ⟨e, he, rfl⟩ := List.mem_map.mp hk
    exact points_slip _ _ hpos (toNat_le_natTotal expensesData e he) (hall e he)
  have hlt := List.sum_lt_sum
    (fun e : Expense => 100 * hunt.loot * e.amount.toNat)
    (fun e : Expense =>
      (100 * shortfallShare hunt.loot e.amount.toNat (natTotal expensesData)
        + (100 + hunt.loot)) * natTotal expensesData) hle hstrict
  rw [sum_map_scaled, sum_map_affine] at hlt
  have hfinal := Nat.lt_of_mul_lt_mul_right hlt
  have e1 : expensesData.length * (100 + hunt.loot)
      = expensesData.length * (hunt.loot + 100) := by rw [Nat.add_comm]
  rw [e1] at hfinal
  exact hfinal

theorem calculateBalance_shortfall_drift_example :
    (∀ r ∈ calculateBalance ⟨"h", 100, []⟩
        [⟨JsNum.int 29, "A", JsNum.int 0⟩, ⟨JsNum.int 71, "B", JsNum.int 0⟩],
      r.balance ≠ JsNum.nan) ∧
    100 * 100 < 100 * balanceTotal (calculateBalance ⟨"h", 100, []⟩
        [⟨JsNum.int 29, "A", JsNum.int 0⟩, ⟨JsNum.int 71, "B", JsNum.int 0⟩])
      + 2 * (100 + 100) :=
  calculateBalance_shortfall_drift ⟨"h", 100, []⟩
    [⟨JsNum.int 29, "A", JsNum.int 0⟩, ⟨JsNum.int 71, "B", JsNum.int 0⟩]
    (by decide) (by decide) (by decide) (by decide)

end Storer
